import Mathlib

/-!
Verification of the PowerTrim repository (backend engine `powertrim_engine.py`
and the GUI data model / export worker in `PowerTrimGUI.py`) against its
natural-language specification.

The Python source is shallowly embedded: pure functions become Lean functions,
the stateful segment store / undo manager become explicit state passing, and
the export job (`run_powertrim_job`) becomes a function producing the list of
observable events (external process launches and worker signal emissions) plus
its result.  External tools (ffprobe, ffmpeg, smartcut) are modelled at their
interface boundary: the metadata they return is a parameter, and launching one
of them is recorded as an event in the trace.
-/

namespace PowerTrim

/-! ## Small list helpers used by the embedding -/

/-- Python `list.insert(i, a)` for `0 ≤ i` (clamps to append when `i ≥ len`). -/
def pyInsert (i : Nat) (a : α) (l : List α) : List α :=
  l.take i ++ a :: l.drop i

/-- Python `del l[i]` / `list.pop(i)` for an in-range index; out-of-range
indices are handled by the callers (the store's bounds check). -/
def pyRemove (l : List α) (i : Nat) : List α :=
  l.eraseIdx i

/-- The elements of `l` whose position (counting from `off`) is not in `s`. -/
def keepAux (off : Nat) (s : List Nat) : List α → List α
  | [] => []
  | a :: t => if off ∈ s then keepAux (off + 1) s t else a :: keepAux (off + 1) s t

/-- The elements of `l` whose position is not listed in `s`. -/
def keepNotIdx (l : List α) (s : List Nat) : List α := keepAux 0 s l

/-! ## `powertrim_engine.sanitize_filename` -/

/-- The characters removed by `sanitize_filename`'s regular expression
`[<>:"/\\|?*]`. -/
def illegalChars : List Char := ['<', '>', ':', '\"', '/', '\\', '|', '?', '*']

/-- First step of `sanitize_filename`: `name.replace('｜','-').replace('：',':')`.
Both replacements are single-character substitutions, hence a character map. -/
def normalizeWide (c : Char) : Char :=
  if c = '｜' then '-' else if c = '：' then ':' else c

/-- Second step: `re.sub(r'[<>:"/\\|?*]', '_', name)`. -/
def replaceIllegal (c : Char) : Char :=
  if c ∈ illegalChars then '_' else c

/-- `powertrim_engine.sanitize_filename`. -/
def sanitize_filename (name : String) : String :=
  String.mk (((name.data.map normalizeWide)).map replaceIllegal)

/-- Python `str.lower()` as a character-wise map (`String.toLower` with its
byte-position machinery unfolded to the character list). -/
def pyLower (s : String) : String := String.mk (s.data.map Char.toLower)

/-! ## `powertrim_engine.format_output_filename`

A Python format template is embedded as the list of its parsed parts: literal
runs and `{field}` placeholders (the format spec after `:`, e.g. `03d`, only
affects rendering, which we keep abstract via pre-rendered values).
`str.format(**data)` raises `KeyError` on a field absent from `data`, which
`format_output_filename` converts to a `ValueError`. -/

inductive TmplPart
  | lit (s : String)
  | field (name : String)
deriving DecidableEq, Repr

/-- The exceptions the embedded engine can raise. -/
inductive JobError
  | valueError (msg : String)
  | runtimeError (msg : String)
deriving DecidableEq, Repr

/-- `powertrim_engine.format_output_filename`: substitute every placeholder
from `data`, raising `ValueError` on the first placeholder missing from
`data`'s keys. -/
def format_output_filename (template : List TmplPart) (data : List (String × String)) :
    Except JobError String :=
  match template with
  | [] => .ok ""
  | .lit s :: rest =>
      match format_output_filename rest data with
      | .error e => .error e
      | .ok tail => .ok (s ++ tail)
  | .field n :: rest =>
      match data.lookup n with
      | none => .error (.valueError ("Invalid placeholder '\x7b" ++ n ++ "\x7d' in output template."))
      | some v =>
          match format_output_filename rest data with
          | .error e => .error e
          | .ok tail => .ok (v ++ tail)

/-! ## `powertrim_engine.generate_ffmpeg_mapping_args` (the Track Mapper) -/

/-- A probed stream descriptor (`ffprobe` JSON entry after
`get_video_metadata` injected `index` and `id`).  `lang` is the optional
`tags.language` entry. -/
structure Stream where
  index : Nat
  id : Nat
  codecType : String
  lang : Option String
deriving DecidableEq, Repr

/-- The sort key computed by the local `sort_key` in
`generate_ffmpeg_mapping_args`: the stream's lowercased language tag
(defaulting to `"und"` when absent) is looked up in `lang_priority`; a tag not
occurring there yields `len(lang_priority)` (Python's `except ValueError`
branch).  Secondary key: the stream id. -/
def sortKey (langPriority : List String) (t : Stream) : Nat × Nat :=
  let lang := pyLower (t.lang.getD "und")
  (langPriority.findIdx (· = lang), t.id)

/-- Lexicographic comparison of the sort keys, i.e. Python's tuple `<=` used
by the stable `list.sort(key=sort_key)`. -/
def keyLe (langPriority : List String) (a b : Stream) : Prop :=
  (sortKey langPriority a).1 < (sortKey langPriority b).1 ∨
    ((sortKey langPriority a).1 = (sortKey langPriority b).1 ∧
      (sortKey langPriority a).2 ≤ (sortKey langPriority b).2)

instance (p : List String) : DecidableRel (keyLe p) := fun a b =>
  inferInstanceAs (Decidable ((sortKey p a).1 < (sortKey p b).1 ∨
    ((sortKey p a).1 = (sortKey p b).1 ∧ (sortKey p a).2 ≤ (sortKey p b).2)))

/-- The `-map`/`-disposition` block for one sorted track list of type letter
`c` (`"a"` or `"s"`): each track is mapped and the first one gets
`default` disposition, all later ones get `"0"`. -/
def dispositionBlock (c : String) (tracks : List Stream) : List String :=
  tracks.enum.foldr
    (fun p acc =>
      "-map" :: ("0:" ++ toString p.2.index) ::
        ("-disposition:" ++ c ++ ":" ++ toString p.1) ::
        (if p.1 = 0 then "default" else "0") :: acc)
    []

/-- The unconditional video mappings (`for track in video_streams:
args.extend(["-map", f"0:{track['index']}"])`). -/
def videoMapArgs (allStreams : List Stream) : List String :=
  (allStreams.filter (·.codecType = "video")).foldr
    (fun t acc => "-map" :: ("0:" ++ toString t.index) :: acc) []

/-- The streams of codec type `ct` whose id is selected. -/
def selectedTracks (ct : String) (allStreams : List Stream) (selectedTrackIds : List Nat) :
    List Stream :=
  allStreams.filter (fun t => t.codecType = ct ∧ t.id ∈ selectedTrackIds)

/-- `powertrim_engine.generate_ffmpeg_mapping_args`.  Python's stable
`list.sort(key=sort_key)` is embedded as `List.insertionSort` over the
(total, transitive) relation `keyLe`; both are stable sorts for a total
preorder, hence compute the same list. -/
def generate_ffmpeg_mapping_args (allStreams : List Stream) (selectedTrackIds : List Nat)
    (langPriority : List String) : List String :=
  let audioSorted :=
    (selectedTracks "audio" allStreams selectedTrackIds).insertionSort (keyLe langPriority)
  let subtitleSorted :=
    (selectedTracks "subtitle" allStreams selectedTrackIds).insertionSort (keyLe langPriority)
  let audioArgs := if audioSorted.isEmpty then ["-an"] else dispositionBlock "a" audioSorted
  let subtitleArgs := if subtitleSorted.isEmpty then ["-sn"] else dispositionBlock "s" subtitleSorted
  videoMapArgs allStreams ++ audioArgs ++ subtitleArgs

/-- The sort key as worded by the specification claim: the position of the
stream's language tag in the priority list, with an unknown *or absent*
language after all listed priorities (`langPriority.length`).  This differs
from the source's `sortKey` exactly when the stream has no language tag but
`"und"` occurs in the priority list (and on case mismatches, which the source
normalises away). -/
def sortKeyClaim (langPriority : List String) (t : Stream) : Nat × Nat :=
  match t.lang with
  | none => (langPriority.length, t.id)
  | some lg => (langPriority.findIdx (· = lg), t.id)

/-- Lexicographic order on the claim-worded keys. -/
def keyLeClaim (langPriority : List String) (a b : Stream) : Prop :=
  (sortKeyClaim langPriority a).1 < (sortKeyClaim langPriority b).1 ∨
    ((sortKeyClaim langPriority a).1 = (sortKeyClaim langPriority b).1 ∧
      (sortKeyClaim langPriority a).2 ≤ (sortKeyClaim langPriority b).2)

instance (p : List String) : DecidableRel (keyLeClaim p) := fun a b =>
  inferInstanceAs (Decidable ((sortKeyClaim p a).1 < (sortKeyClaim p b).1 ∨
    ((sortKeyClaim p a).1 = (sortKeyClaim p b).1 ∧
      (sortKeyClaim p a).2 ≤ (sortKeyClaim p b).2)))

/-- The track mapper exactly as the claim words it: identical to
`generate_ffmpeg_mapping_args` except that the per-type sort uses the
claim-worded key. -/
def generateMappingClaim (allStreams : List Stream) (selectedTrackIds : List Nat)
    (langPriority : List String) : List String :=
  let audioSorted :=
    (selectedTracks "audio" allStreams selectedTrackIds).insertionSort (keyLeClaim langPriority)
  let subtitleSorted :=
    (selectedTracks "subtitle" allStreams selectedTrackIds).insertionSort (keyLeClaim langPriority)
  let audioArgs := if audioSorted.isEmpty then ["-an"] else dispositionBlock "a" audioSorted
  let subtitleArgs := if subtitleSorted.isEmpty then ["-sn"] else dispositionBlock "s" subtitleSorted
  videoMapArgs allStreams ++ audioArgs ++ subtitleArgs

/-! ## `powertrim_engine.hhmmss_to_seconds` and the re-encode progress loop -/

/-- Python `int()` on a rational (truncation toward zero). -/
def pyInt (q : ℚ) : ℤ := if 0 ≤ q then ⌊q⌋ else ⌈q⌉

/-- A timestamp matched by the regex `time=(\d{2}:\d{2}:\d{2}\.\d{2})` on an
ffmpeg stderr line: hours, minutes, seconds and centiseconds, all decimal
digit groups (hence natural numbers). -/
structure TimeStamp where
  hh : Nat
  mm : Nat
  ss : Nat
  cs : Nat
deriving DecidableEq, Repr

/-- `powertrim_engine.hhmmss_to_seconds` applied to a matched timestamp:
`int(parts[0])*3600 + int(parts[1])*60 + float(parts[2])`. -/
def hhmmss_to_seconds (t : TimeStamp) : ℚ :=
  t.hh * 3600 + t.mm * 60 + (t.ss + (t.cs : ℚ) / 100)

/-- The percentages emitted by the stderr loop of
`trim_video_segment` in a non-copy mode (`percentage = int((elapsed_time /
duration) * 100)`, emitted as `min(100, percentage)`), one per matched
`time=` line. -/
def reencodeProgress (duration : ℚ) (times : List TimeStamp) : List ℤ :=
  times.map fun t => min 100 (pyInt (hhmmss_to_seconds t / duration * 100))

/-! ## `powertrim_engine.run_powertrim_job` and `PowerTrimGUI.ExportWorker.run`

The job is embedded as a function from the export settings, the environment
(what the external probe/crop tools would return, and the wall clock) and the
cancellation flag to the sequence of observable events plus the job's result.
The cancellation flag `_is_cancelled` is set asynchronously by
`ExportWorker.stop` and only ever goes from `False` to `True`; it is modelled
as a function from check points to `Bool` (check point `i < N` is the check at
the top of the loop iteration for segment `i`, check point `N` is the
post-loop check in the merge branch, and `N + 1` is the final check in
`ExportWorker.run`), monotone for an actual run.

Launching an external process is recorded as an event: `Ev.probe` for
`get_video_metadata`'s ffprobe run, `Ev.cropDetect` for `detect_black_bars`,
`Ev.trim i` for the per-segment `trim_video_segment` process and
`Ev.mergeProc` for `merge_videos`.  The per-line progress parsing inside
`trim_video_segment` is modelled separately by `reencodeProgress` above; the
trim processes themselves are assumed to succeed (their failure modes are
external-tool behaviour outside these claims). -/

inductive Ev
  | probe
  | cropDetect
  | clipStarted (cur total : Nat)
  | stepChanged (text : String)
  | trim (i : Nat)
  | mergeProc
  | finished (result : String)
  | errorSig (msg : String)
deriving DecidableEq, Repr

/-- The four trim strategies (`settings["video_mode"]` is one of the strings
`'copy'`, `'smart-cut'`, `'re-encode'`, `'ffv1'` produced by
`ExportDialog.get_settings`). -/
inductive VideoMode
  | copy
  | smartCut
  | reencode
  | ffv1
deriving DecidableEq, Repr

/-- `settings["mode"]`: whether `segments_raw` holds frame or second ranges. -/
inductive SegMode
  | frames
  | seconds
deriving DecidableEq, Repr

/-- The export settings dictionary consumed by `run_powertrim_job`
(`input_video` is split into its stem and suffix, the only parts the job
uses). -/
structure Settings where
  inputStem : String
  inputExt : String
  mode : SegMode
  segmentsRaw : List (ℚ × ℚ)
  outputTemplate : List TmplPart
  merge : Bool
  videoMode : VideoMode
  autocrop : Bool
  langPriority : List String
  selectedTrackIds : List Nat
  outputDir : String
  outputFile : String

/-- What `get_video_metadata` returns (stream list plus the derived `fps`,
`duration` and `resolution` entries). -/
structure Metadata where
  streams : List Stream
  fps : ℚ
  duration : ℚ
  resolution : String

/-- The environment of one job run: the probe result, the crop-detection
result, and `datetime.now()` rendered as date and time strings. -/
structure Env where
  meta : Metadata
  crop : Option String
  nowDate : String
  nowTime : String

/-- Output extension choice of `run_powertrim_job`:
`".mkv" if video_mode == 'ffv1' else ".mp4" if 're-encode' in video_mode else
input_video.suffix` (on the four possible mode strings the substring test
holds exactly for `'re-encode'`). -/
def videoExtension (m : VideoMode) (inputExt : String) : String :=
  match m with
  | .ffv1 => ".mkv"
  | .reencode => ".mp4"
  | _ => inputExt

/-- The merge-branch loop of `run_powertrim_job` starting at segment `i`:
check the cancellation flag, emit `clip_started`/`step_changed`, launch the
trim; after the loop, a final flag check, the merge step message and the
concat process. -/
def mergeLoop (flag : Nat → Bool) (total : Nat) (outputFile : String) :
    Nat → List (ℚ × ℚ) → List Ev × Except JobError String
  | i, [] =>
      if flag i then ([], .ok "Cancelled")
      else ([Ev.stepChanged "Merging all clips...", Ev.mergeProc], .ok outputFile)
  | i, _ :: rest =>
      if flag i then ([], .ok "Cancelled")
      else
        let r := mergeLoop flag total outputFile (i + 1) rest
        (Ev.clipStarted (i + 1) total ::
          Ev.stepChanged ("Processing clip " ++ toString (i + 1) ++ " of " ++ toString total ++ "...") ::
          Ev.trim i :: r.1, r.2)

/-- The per-segment template data of non-merge loop iteration `i`:
`base_template_data | {"num": i + 1, "start": int(segments_raw[i][0]), "end":
int(segments_raw[i][1])}` (the dictionaries have disjoint keys, so the merge
is concatenation). -/
def segLoopData (baseData : List (String × String)) (i : Nat) (raw : ℚ × ℚ) :
    List (String × String) :=
  baseData ++ [("num", toString (i + 1)), ("start", toString (pyInt raw.1)),
    ("end", toString (pyInt raw.2))]

/-- The non-merge loop of `run_powertrim_job` starting at segment `i`: check
the cancellation flag, build the per-segment template data, format the output
name (a `ValueError` here aborts the job), emit the status signals, launch
the trim.  The loop walks the raw segments; the converted time range only
feeds the trim command, which is abstract here. -/
def segLoop (flag : Nat → Bool) (total : Nat) (template : List TmplPart)
    (baseData : List (String × String)) (ext outputDir : String) :
    Nat → List (ℚ × ℚ) → List Ev × Except JobError String
  | _, [] => ([], .ok outputDir)
  | i, raw :: rest =>
      if flag i then ([], .ok "Cancelled")
      else
        match format_output_filename template (segLoopData baseData i raw) with
        | .error e => ([], .error e)
        | .ok outputName =>
            let r := segLoop flag total template baseData ext outputDir (i + 1) rest
            (Ev.clipStarted (i + 1) total ::
              Ev.stepChanged ("Exporting clip " ++ toString (i + 1) ++ " of " ++ toString total ++ ": " ++
                outputName ++ ext) ::
              Ev.trim i :: r.1, r.2)

/-- The `base_template_data` dictionary built by `run_powertrim_job`. -/
def baseTemplateData (s : Settings) (env : Env) : List (String × String) :=
  [("filename", sanitize_filename s.inputStem), ("resolution", env.meta.resolution),
    ("date", env.nowDate), ("time", env.nowTime)]

/-- `powertrim_engine.run_powertrim_job`: validation, probe, optional crop
detection, track mapping, then the per-segment loop of the selected output
mode.  Returns the events of the run and the job result (`.ok` holds the
returned path or the `"Cancelled"` marker; `.error` a raised exception).
The conversion of frame ranges to second ranges (`segments_in_seconds`) only
feeds the trim commands, which the embedding abstracts to `Ev.trim` events,
so the loops walk `segments_raw` directly (`total` and the per-segment
template data agree with the source either way). -/
def run_powertrim_job (s : Settings) (env : Env) (flag : Nat → Bool) :
    List Ev × Except JobError String :=
  if s.segmentsRaw.isEmpty then
    ([], .error (.valueError "No valid segments found to process."))
  else
    let meta := env.meta
    if s.mode = .frames ∧ meta.fps = 0 then
      ([Ev.probe], .error (.valueError "Frame mode selected, but could not determine frame rate."))
    else
      let evPre := if s.autocrop then [Ev.probe, Ev.cropDetect] else [Ev.probe]
      let _mappingArgs :=
        generate_ffmpeg_mapping_args meta.streams s.selectedTrackIds s.langPriority
      let ext := videoExtension s.videoMode s.inputExt
      let total := s.segmentsRaw.length
      let r :=
        if s.merge then mergeLoop flag total s.outputFile 0 s.segmentsRaw
        else segLoop flag total s.outputTemplate (baseTemplateData s env) ext s.outputDir 0
          s.segmentsRaw
      (evPre ++ r.1, r.2)

/-- String rendering of a raised exception (`str(e)`). -/
def JobError.msg : JobError → String
  | .valueError m => m
  | .runtimeError m => m

/-- `PowerTrimGUI.ExportWorker.run`: run the job; on an exception emit
`error`, otherwise emit `finished(result)` — but only when the cancellation
flag is still clear (`if not self._is_cancelled`). -/
def workerRun (s : Settings) (env : Env) (flag : Nat → Bool) : List Ev :=
  let r := run_powertrim_job s env flag
  match r.2 with
  | .error e => r.1 ++ [Ev.errorSig e.msg]
  | .ok result =>
      if flag (s.segmentsRaw.length + 1) then r.1 else r.1 ++ [Ev.finished result]

/-! ## `PowerTrimGUI` data model: `Segment`, `SegmentManager` -/

/-- `PowerTrimGUI.Segment`.  `color` is an opaque display tag (a `QColor` in
the source), embedded as a `Nat`. -/
structure Segment where
  startFrame : Int
  endFrame : Int
  color : Nat
  name : String
deriving DecidableEq, Repr

/-- The 4-tuples `(start_frame, end_frame, color, name)` the GUI passes to
commands. -/
abbrev SegData := Int × Int × Nat × String

/-- The `Segment` constructor: an empty name defaults to the derived label
`f"Segment [{start_frame}-{end_frame}]"`. -/
def mkSegment (d : SegData) : Segment :=
  ⟨d.1, d.2.1, d.2.2.1,
    if d.2.2.2 = "" then "Segment [" ++ toString d.1 ++ "-" ++ toString d.2.1 ++ "]"
    else d.2.2.2⟩

/-- The data tuple of a stored segment, as captured by the GUI before
building a command. -/
def Segment.data (s : Segment) : SegData := (s.startFrame, s.endFrame, s.color, s.name)

/-- `SegmentManager.add_segment`: append when `index` is `-1` (modelled as
`none`), else `list.insert(index, segment)`. -/
def addSegment (l : List Segment) (d : SegData) (index : Option Nat) : List Segment :=
  match index with
  | none => l ++ [mkSegment d]
  | some i => pyInsert i (mkSegment d) l

/-- `SegmentManager.remove_segment`: delete at `index` when in range, silent
no-op otherwise. -/
def removeSegment (l : List Segment) (index : Nat) : List Segment :=
  if index < l.length then pyRemove l index else l

/-- `SegmentManager.update_segment`: replace at `index` when in range, silent
no-op otherwise. -/
def updateSegment (l : List Segment) (index : Nat) (d : SegData) : List Segment :=
  if index < l.length then l.set index (mkSegment d) else l

/-- `SegmentManager.set_segments`. -/
def setSegments (data : List SegData) : List Segment := data.map mkSegment

/-! ## Command pattern (`AddSegmentCommand` … `MergeSegmentsCommand`)

Each Python command object is a constructor of `Cmd`.  `MergeSegmentsCommand`
mutates itself on first execution (it lazily captures `original_data` and
`insert_index`), so executing a command returns the updated command alongside
the new store contents. -/

inductive Cmd
  | add (data : SegData)
  | del (index : Nat) (data : SegData)
  | update (index : Nat) (old new : SegData)
  | imp (old new : List SegData)
  | merge (indices : List Nat) (mergedData : SegData)
      (originalData : List SegData) (insertIndex : Nat)
deriving DecidableEq, Repr

/-- Stable descending sort of the selected indices — `sorted(indices,
reverse=True)` performed by `MergeSegmentsCommand.__init__`. -/
def sortDesc (l : List Nat) : List Nat := l.insertionSort (· ≥ ·)

/-- Stable ascending sort — `sorted(self.indices, reverse=False)`. -/
def sortAsc (l : List Nat) : List Nat := l.insertionSort (· ≤ ·)

/-- A fresh `MergeSegmentsCommand(sm, indices, merged_data)`: the index list
is stored descending, `original_data` starts empty and `insert_index`
unset (`-1` in the source; the initial value is irrelevant because `execute`
always overwrites it — we use `0`). -/
def freshMerge (indices : List Nat) (mergedData : SegData) : Cmd :=
  .merge (sortDesc indices) mergedData [] 0

/-- `Cmd.execute`: the store mutation of each command, together with the
(possibly updated) command object.  For `merge`: capture `original_data` on
first execution (ascending index order), remove at the stored descending
indices, then insert the merged segment at the last stored index. -/
def Cmd.exec (c : Cmd) (l : List Segment) : List Segment × Cmd :=
  match c with
  | .add d => (addSegment l d none, c)
  | .del i _ => (removeSegment l i, c)
  | .update i _ new => (updateSegment l i new, c)
  | .imp _ new => (setSegments new, c)
  | .merge idxs merged orig _ =>
      let orig' := if orig.isEmpty
        then (sortAsc idxs).map (fun i => ((l.get? i).getD (mkSegment (0, 0, 0, ""))).data)
        else orig
      let removed := idxs.foldl removeSegment l
      let insertIdx := (idxs.getLast?).getD 0
      (addSegment removed merged (some insertIdx), .merge idxs merged orig' insertIdx)

/-- `Cmd.undo`: the inverse mutation (reading, never writing, the command's
captured state). -/
def Cmd.undoOp (c : Cmd) (l : List Segment) : List Segment :=
  match c with
  | .add _ => removeSegment l (l.length - 1)
  | .del i d => addSegment l d (some i)
  | .update i old _ => updateSegment l i old
  | .imp old _ => setSegments old
  | .merge idxs _ orig insertIdx =>
      let l' := removeSegment l insertIdx
      ((sortAsc idxs).zip orig).foldl (fun acc p => addSegment acc p.2 (some p.1)) l'

/-! ## `PowerTrimGUI.UndoManager`

State: the segment store plus the two command stacks.  Every public method
additionally reports how many times it emitted the `command_executed`
("dirty") signal during the call. -/

structure UndoManager where
  segs : List Segment
  undoStack : List Cmd
  redoStack : List Cmd
deriving DecidableEq, Repr

/-- `UndoManager.execute(cmd)`: run the command, push it on the undo stack,
clear the redo stack; emits `command_executed` once. -/
def UndoManager.execute (um : UndoManager) (c : Cmd) : UndoManager × Nat :=
  let r := c.exec um.segs
  (⟨r.1, r.2 :: um.undoStack, []⟩, 1)

/-- `UndoManager.undo()`: when the undo stack is non-empty, pop, invert, push
on the redo stack.  The `command_executed` emission sits outside the `if` in
the source and therefore happens on every call, including the no-op one. -/
def UndoManager.undoCall (um : UndoManager) : UndoManager × Nat :=
  match um.undoStack with
  | [] => (um, 1)
  | c :: rest => (⟨c.undoOp um.segs, rest, c :: um.redoStack⟩, 1)

/-- `UndoManager.redo()`: symmetric to `undo`, re-running the popped
command; the emission likewise happens on every call. -/
def UndoManager.redoCall (um : UndoManager) : UndoManager × Nat :=
  match um.redoStack with
  | [] => (um, 1)
  | c :: rest =>
      let r := c.exec um.segs
      (⟨r.1, r.2 :: um.undoStack, rest⟩, 1)

/-! ## `ProTrimmerWindow.merge_selected_segments` -/

/-- The adjacency check of `merge_selected_segments`: walking the selection
sorted by `start_frame`, reject as soon as
`segs[i].end_frame < segs[i+1].start_frame - 1`. -/
def pairwiseAdjacent : List Segment → Bool
  | a :: b :: rest =>
      if a.endFrame < b.startFrame - 1 then false else pairwiseAdjacent (b :: rest)
  | _ => true

/-- The sort relation of `merge_selected_segments`'s
`sorted(..., key=lambda x: x['segment'].start_frame)`. -/
def pairStartLe (a b : Nat × Segment) : Prop := a.2.startFrame ≤ b.2.startFrame

instance : DecidableRel pairStartLe := fun a b =>
  inferInstanceAs (Decidable (a.2.startFrame ≤ b.2.startFrame))

/-- The selected rows paired with their segments, stably sorted by segment
start frame (the local `segs` of `merge_selected_segments`). -/
def mergeCandidatePairs (l : List Segment) (sel : List Nat) : List (Nat × Segment) :=
  (sel.map (fun i => (i, (l.get? i).getD (mkSegment (0, 0, 0, ""))))).insertionSort pairStartLe

/-- The `merged_data` tuple computed by `merge_selected_segments`: span from
the first start-sorted segment's start to the maximum end, color of the first
start-sorted segment, derived name. -/
def mergeData (l : List Segment) (sel : List Nat) : SegData :=
  let segs := mergeCandidatePairs l sel
  let newStart := (segs.head?.map (·.2.startFrame)).getD 0
  let newEnd := (segs.map (·.2.endFrame)).foldr max ((segs.head?.map (·.2.endFrame)).getD 0)
  let color := (segs.head?.map (·.2.color)).getD 0
  (newStart, newEnd, color, "Merged [" ++ toString newStart ++ "-" ++ toString newEnd ++ "]")

/-- `merge_selected_segments` on a store `um` with the rows `sel` selected
(`sel` lists the selected rows in selection order; the handler pairs each row
with its segment, sorts the pairs by `start_frame`, validates adjacency and
then executes a `MergeSegmentsCommand`).  Returns the manager after the
operation (unchanged when the merge is rejected or fewer than two rows are
selected). -/
def mergeSelectedSegments (um : UndoManager) (sel : List Nat) : UndoManager :=
  if sel.length < 2 then um
  else
    let segs := mergeCandidatePairs um.segs sel
    if pairwiseAdjacent (segs.map (·.2)) then
      (um.execute (freshMerge (segs.map (·.1)) (mergeData um.segs sel))).1
    else um

/-! ## Auxiliary predicates for the store / command-stack claims -/

/-- The segments a selection of rows refers to. -/
def selectedSegs (l : List Segment) (sel : List Nat) : List Segment :=
  sel.map (fun i => (l.get? i).getD (mkSegment (0, 0, 0, "")))

/-- Invariant of every reachable store: the `Segment` constructor substitutes
a non-empty derived label for an empty name, so no stored segment has an
empty name. -/
def NamesOk (l : List Segment) : Prop := ∀ s ∈ l, s.name ≠ ""

/-- Well-formedness of a command relative to the store it is about to be
executed on — exactly the way the GUI constructs commands at its call sites:
`delete`/`update` capture the current data of an in-range row, `import`
captures the full current contents, and a merge command is fresh
(`original_data` still empty), over distinct in-range indices stored in
descending order. -/
def validCmd (c : Cmd) (l : List Segment) : Prop :=
  match c with
  | .add _ => True
  | .del i d => ∃ s, l.get? i = some s ∧ d = s.data
  | .update i old _ => ∃ s, l.get? i = some s ∧ old = s.data
  | .imp old _ => old = l.map Segment.data
  | .merge idxs _ orig _ =>
      orig = [] ∧ idxs ≠ [] ∧ List.Pairwise (· > ·) idxs ∧ ∀ i ∈ idxs, i < l.length

/-- A command sequence in which every command is well-formed for the store
state it meets. -/
def ValidSeq : List Segment → List Cmd → Prop
  | _, [] => True
  | l, c :: cs => validCmd c l ∧ ValidSeq (c.exec l).1 cs

/-- Execute a list of commands through the undo manager. -/
def executeAll (cs : List Cmd) (um : UndoManager) : UndoManager :=
  cs.foldl (fun um c => (um.execute c).1) um

/-- `n` consecutive `undo()` calls. -/
def undoN : Nat → UndoManager → UndoManager
  | 0, um => um
  | n + 1, um => undoN n um.undoCall.1

/-- `n` consecutive `redo()` calls. -/
def redoN : Nat → UndoManager → UndoManager
  | 0, um => um
  | n + 1, um => redoN n um.redoCall.1

/-! ## Concrete inputs used by counterexamples and witnesses -/

/-- Streams of the C3 spec example: audio ids 1 (eng), 2 (jpn), 3 (und),
preceded by one video stream. -/
def exampleStreams : List Stream :=
  [⟨0, 0, "video", none⟩, ⟨1, 1, "audio", some "eng"⟩, ⟨2, 2, "audio", some "jpn"⟩,
    ⟨3, 3, "audio", some "und"⟩]

/-- Streams exhibiting the divergence between the source's sort key and the
claim's wording: one audio stream tagged `eng` and one with no language tag,
under priority `["und", "eng"]`. -/
def cexStreams : List Stream := [⟨1, 1, "audio", some "eng"⟩, ⟨2, 2, "audio", none⟩]

/-- A template with the unknown placeholder `{bogus}`. -/
def bogusTemplate : List TmplPart := [.field "filename", .lit "_", .field "bogus"]

/-- A template using only documented placeholders. -/
def okTemplate : List TmplPart := [.field "filename", .lit "_", .field "num"]

/-- A benign environment: a single video stream, 25 fps, 100 s. -/
def exampleEnv : Env :=
  ⟨⟨[⟨0, 0, "video", none⟩], 25, 100, "1920x1080"⟩, none, "2026-10-12", "12-00-00"⟩

/-- Two-segment non-merge export settings. -/
def exampleSettings : Settings :=
  ⟨"vid", ".mkv", .frames, [(0, 100), (100, 250)], okTemplate, false, .copy, false,
    [], [], "outdir", "out.mp4"⟩

/-- The placeholder keys available to the per-segment template data of the
non-merge branch. -/
def segDataKeys : List String :=
  ["filename", "resolution", "date", "time", "num", "start", "end"]

/-- The template contains a placeholder other than the documented ones. -/
def templateHasUnknown (t : List TmplPart) : Prop :=
  ∃ n, TmplPart.field n ∈ t ∧ n ∉ segDataKeys

/-- Every placeholder of the template is documented. -/
def templateOk (t : List TmplPart) : Prop :=
  ∀ n, TmplPart.field n ∈ t → n ∈ segDataKeys

/-- The cancellation flag only ever moves from clear to set
(`ExportWorker.stop` is the sole writer and it writes `True`). -/
def MonotoneFlag (flag : Nat → Bool) : Prop :=
  ∀ j k, j ≤ k → flag j = true → flag k = true

/-- Merge-mode export settings carrying the `{bogus}` placeholder. -/
def bogusMergeSettings : Settings :=
  ⟨"vid", ".mkv", .frames, [(0, 100), (100, 250)], bogusTemplate, true, .copy, false,
    [], [], "outdir", "out.mp4"⟩

/-! # Theorems -/

/-! ## C10: `sanitize_filename` removes every illegal character -/

theorem hhmmss_nonneg (t : TimeStamp) : 0 ≤ hhmmss_to_seconds t := by
  unfold hhmmss_to_seconds
  positivity

/-- C10: for every input string, the result of `sanitize_filename` contains
none of the characters `< > : " / \ | ? *` (in particular a fullwidth colon
`：` is first normalized to `:` and then replaced), so the result is always
usable as a filename component. -/
theorem sanitize_filename_no_illegal :
    (∀ (s : String), ∀ c ∈ (sanitize_filename s).data, c ∉ illegalChars) ∧
      sanitize_filename "a：b" = "a_b" := by
  constructor
  · intro s c hc
    have hc' : c ∈ (s.data.map normalizeWide).map replaceIllegal := hc
    obtain ⟨a, _, rfl⟩ := List.mem_map.mp hc'
    unfold replaceIllegal
    by_cases h : a ∈ illegalChars
    · rw [if_pos h]; decide
    · rw [if_neg h]; exact h
  · rfl

/-- Witness for C10 at the concrete input `"a：b"`. -/
theorem sanitize_filename_no_illegal_witness : 'a' ∉ illegalChars :=
  sanitize_filename_no_illegal.1 "a：b" 'a' (by decide)

/-! ## C8: empty per-type selection yields the explicit `-an` / `-sn` -/

/-- C8: whenever zero audio streams are selected the track mapper emits the
explicit no-audio directive `-an`, and independently whenever zero subtitle
streams are selected it emits `-sn`, instead of silently omitting the
mapping. -/
theorem mapping_empty_selection_directives :
    ∀ (streams : List Stream) (sel : List Nat) (prio : List String),
      (selectedTracks "audio" streams sel = [] →
        "-an" ∈ generate_ffmpeg_mapping_args streams sel prio) ∧
      (selectedTracks "subtitle" streams sel = [] →
        "-sn" ∈ generate_ffmpeg_mapping_args streams sel prio) := by
  intro streams sel prio
  constructor
  · intro h
    simp only [generate_ffmpeg_mapping_args, h, List.insertionSort, List.isEmpty_nil, if_true]
    simp
  · intro h
    simp only [generate_ffmpeg_mapping_args, h, List.insertionSort, List.isEmpty_nil, if_true]
    simp

/-- Witness for C8 on a stream list with one video stream and nothing
selected. -/
theorem mapping_empty_selection_directives_witness :
    "-an" ∈ generate_ffmpeg_mapping_args [⟨0, 0, "video", none⟩] [] [] ∧
      "-sn" ∈ generate_ffmpeg_mapping_args [⟨0, 0, "video", none⟩] [] [] :=
  ⟨(mapping_empty_selection_directives _ _ _).1 (by decide),
    (mapping_empty_selection_directives _ _ _).2 (by decide)⟩

/-! ## C7: dirty notification per Command Stack call -/

/-- C7 counterexample: the claim says a no-op `undo()` on an empty done stack
emits no dirty notification; on a fresh manager the call indeed mutates
nothing, yet the `command_executed` emission count is 1 (the emit statement
sits outside the `if`), not 0. -/
theorem undo_noop_emits_counterexample :
    (UndoManager.undoCall ⟨[], [], []⟩).1 = ⟨[], [], []⟩ ∧
      (UndoManager.undoCall ⟨[], [], []⟩).2 ≠ 0 := by
  exact ⟨rfl, by decide⟩

/-- C7 amended: every `execute`, `undo` or `redo` call emits the dirty
notification exactly once per call — including a no-op `undo`/`redo` on an
empty stack; the emission accompanies every call, not only actual Store
mutations. -/
theorem dirty_notification_once_per_call :
    ∀ (um : UndoManager) (c : Cmd),
      (um.execute c).2 = 1 ∧ um.undoCall.2 = 1 ∧ um.redoCall.2 = 1 := by
  intro um c
  obtain ⟨segs, undoS, redoS⟩ := um
  refine ⟨rfl, ?_, ?_⟩
  · cases undoS <;> rfl
  · cases redoS <;> rfl

/-! ## C9: re-encode progress is bounded and monotone -/

/-- C9: for every re-encode trim with positive target duration, every emitted
progress percentage lies in `[0, 100]` (even when the parsed elapsed time
exceeds the duration), and whenever the tool's parsed elapsed times are
non-decreasing — which an encoder's progress line is — the emitted
percentages are monotonically non-decreasing. -/
theorem reencode_progress_bounded_monotone :
    ∀ (duration : ℚ) (times : List TimeStamp), 0 < duration →
      (∀ p ∈ reencodeProgress duration times, 0 ≤ p ∧ p ≤ 100) ∧
      (List.Chain' (fun a b => hhmmss_to_seconds a ≤ hhmmss_to_seconds b) times →
        List.Chain' (· ≤ ·) (reencodeProgress duration times)) := by
  intro duration times hd
  have key : ∀ t : TimeStamp, 0 ≤ hhmmss_to_seconds t / duration * 100 := by
    intro t
    have := hhmmss_nonneg t
    positivity
  have emit_eq : ∀ t : TimeStamp,
      min 100 (pyInt (hhmmss_to_seconds t / duration * 100)) =
        min 100 ⌊hhmmss_to_seconds t / duration * 100⌋ := by
    intro t; rw [pyInt, if_pos (key t)]
  constructor
  · intro p hp
    obtain ⟨t, _, rfl⟩ := List.mem_map.mp hp
    rw [emit_eq t]
    refine ⟨le_min (by norm_num) (Int.floor_nonneg.mpr (key t)), min_le_left _ _⟩
  · intro hchain
    unfold reencodeProgress
    rw [List.chain'_map]
    refine List.Chain'.imp ?_ hchain
    intro a b hab
    rw [emit_eq a, emit_eq b]
    refine min_le_min le_rfl (Int.floor_le_floor ?_)
    gcongr

/-- Witness for C9 at duration 10 s and parsed times 5.00 s and 20.00 s (the
second overshooting the duration). -/
theorem reencode_progress_witness :
    List.Chain' (· ≤ ·) (reencodeProgress 10 [⟨0, 0, 5, 0⟩, ⟨0, 0, 20, 0⟩]) :=
  (reencode_progress_bounded_monotone 10 [⟨0, 0, 5, 0⟩, ⟨0, 0, 20, 0⟩] (by norm_num)).2
    (by norm_num [List.chain'_cons, List.chain'_singleton, hhmmss_to_seconds])

/-! ## Lemmas on the template formatter -/

theorem lookup_none_of_unlisted (n : String) (ps : List (String × String))
    (hk : ∀ p ∈ ps, p.1 ∈ segDataKeys) (hn : n ∉ segDataKeys) :
    ps.lookup n = none := by
  induction ps with
  | nil => rfl
  | cons p rest ih =>
    obtain ⟨k, v⟩ := p
    have hp : k ∈ segDataKeys := hk (k, v) (by simp)
    have hne : (n == k) = false := by
      rw [beq_eq_false_iff_ne]
      intro h
      exact hn (h ▸ hp)
    simp only [List.lookup, hne]
    exact ih (fun q hq => hk q (by simp [hq]))

theorem format_error_of_unknown (t : List TmplPart) (data : List (String × String))
    (hk : ∀ p ∈ data, p.1 ∈ segDataKeys) (hu : templateHasUnknown t) :
    ∃ m, format_output_filename t data = .error (.valueError m) := by
  induction t with
  | nil => obtain ⟨n, hmem, _⟩ := hu; exact absurd hmem (List.not_mem_nil _)
  | cons part rest ih =>
    obtain ⟨n, hmem, hn⟩ := hu
    cases part with
    | lit s =>
      have hrest : TmplPart.field n ∈ rest := by
        rcases List.mem_cons.mp hmem with h | h
        · cases h
        · exact h
      obtain ⟨m, hm⟩ := ih ⟨n, hrest, hn⟩
      exact ⟨m, by simp [format_output_filename, hm]⟩
    | field k =>
      by_cases hkk : k ∈ segDataKeys
      · have hnk : n ≠ k := fun h => hn (h ▸ hkk)
        have hrest : TmplPart.field n ∈ rest := by
          rcases List.mem_cons.mp hmem with h | h
          · cases h; exact absurd rfl hnk
          · exact h
        obtain ⟨m, hm⟩ := ih ⟨n, hrest, hn⟩
        cases hl : data.lookup k with
        | none =>
          exact ⟨"Invalid placeholder '\x7b" ++ k ++ "\x7d' in output template.",
            by simp [format_output_filename, hl]⟩
        | some v => exact ⟨m, by simp [format_output_filename, hl, hm]⟩
      · have hnone := lookup_none_of_unlisted k data hk hkk
        exact ⟨"Invalid placeholder '\x7b" ++ k ++ "\x7d' in output template.",
          by simp [format_output_filename, hnone]⟩

theorem format_ok_of_templateOk (t : List TmplPart) (data : List (String × String))
    (hv : ∀ n ∈ segDataKeys, (data.lookup n).isSome) (hok : templateOk t) :
    ∃ v, format_output_filename t data = .ok v := by
  induction t with
  | nil => exact ⟨"", rfl⟩
  | cons part rest ih =>
    have hrest : templateOk rest := fun n hn => hok n (List.mem_cons_of_mem _ hn)
    cases part with
    | lit s =>
      obtain ⟨tail, htail⟩ := ih hrest
      exact ⟨s ++ tail, by simp [format_output_filename, htail]⟩
    | field k =>
      have hks : k ∈ segDataKeys := hok k (by simp)
      obtain ⟨v, hvk⟩ := Option.isSome_iff_exists.mp (hv k hks)
      obtain ⟨tail, htail⟩ := ih hrest
      exact ⟨v ++ tail, by simp [format_output_filename, hvk, htail]⟩

theorem segData_lookup_isSome (s : Settings) (env : Env) (a b c : String) :
    ∀ n ∈ segDataKeys,
      ((baseTemplateData s env ++
        [("num", a), ("start", b), ("end", c)]).lookup n).isSome := by
  intro n hn
  simp only [segDataKeys, List.mem_cons, List.not_mem_nil, or_false] at hn
  rcases hn with rfl | rfl | rfl | rfl | rfl | rfl | rfl <;> rfl

theorem segData_keys_listed (s : Settings) (env : Env) (a b c : String) :
    ∀ p ∈ baseTemplateData s env ++ [("num", a), ("start", b), ("end", c)],
      p.1 ∈ segDataKeys := by
  intro p hp
  simp only [baseTemplateData, List.mem_append, List.mem_cons, List.not_mem_nil,
    or_false] at hp
  rcases hp with (rfl | rfl | rfl | rfl) | rfl | rfl | rfl <;> simp [segDataKeys]

/-! ## Lemmas on the export loops -/

theorem mergeLoop_result_flagOff (total : Nat) (out : String) :
    ∀ (l : List (ℚ × ℚ)) (i : Nat),
      (mergeLoop (fun _ => false) total out i l).2 = .ok out := by
  intro l
  induction l with
  | nil => intro i; simp [mergeLoop]
  | cons x rest ih => intro i; simp [mergeLoop, ih]

theorem mergeLoop_trim_flag (flag : Nat → Bool) (total : Nat) (out : String) :
    ∀ (l : List (ℚ × ℚ)) (i j : Nat),
      Ev.trim j ∈ (mergeLoop flag total out i l).1 → flag j = false := by
  intro l
  induction l with
  | nil =>
    intro i j h
    by_cases hf : flag i = true <;> simp [mergeLoop, hf] at h
  | cons x rest ih =>
    intro i j h
    by_cases hf : flag i = true
    · simp [mergeLoop, hf] at h
    · simp only [mergeLoop, hf, if_false, Bool.false_eq_true, List.mem_cons] at h
      rcases h with h | h | h | h
      · cases h
      · cases h
      · cases h; exact Bool.eq_false_iff.mpr hf
      · exact ih (i + 1) j h

theorem mergeLoop_mergeProc_flag (flag : Nat → Bool) (total : Nat) (out : String) :
    ∀ (l : List (ℚ × ℚ)) (i : Nat),
      Ev.mergeProc ∈ (mergeLoop flag total out i l).1 → flag (i + l.length) = false := by
  intro l
  induction l with
  | nil =>
    intro i h
    by_cases hf : flag i = true
    · simp [mergeLoop, hf] at h
    · simpa using Bool.eq_false_iff.mpr hf
  | cons x rest ih =>
    intro i h
    by_cases hf : flag i = true
    · simp [mergeLoop, hf] at h
    · simp only [mergeLoop, hf, if_false, Bool.false_eq_true, List.mem_cons] at h
      rcases h with h | h | h | h
      · cases h
      · cases h
      · cases h
      · have h2 := ih (i + 1) h
        have harith : i + 1 + rest.length = i + (x :: rest).length := by
          simp [List.length_cons]; omega
        rwa [harith] at h2

theorem mergeLoop_cancelled (flag : Nat → Bool) (total : Nat) (out : String) :
    ∀ (l : List (ℚ × ℚ)) (i : Nat),
      (∃ k, i ≤ k ∧ k ≤ i + l.length ∧ flag k = true) →
      (mergeLoop flag total out i l).2 = .ok "Cancelled" := by
  intro l
  induction l with
  | nil =>
    intro i ⟨k, hik, hki, hk⟩
    have hki' : k ≤ i := by simpa using hki
    have : k = i := by omega
    subst this
    simp [mergeLoop, hk]
  | cons x rest ih =>
    intro i ⟨k, hik, hki, hk⟩
    by_cases hf : flag i = true
    · simp [mergeLoop, hf]
    · have hlt : i + 1 ≤ k := by
        rcases Nat.eq_or_lt_of_le hik with h | h
        · exact absurd (h ▸ hk) hf
        · omega
      have hrec := ih (i + 1) ⟨k, hlt, by simp [List.length_cons] at hki; omega, hk⟩
      simp [mergeLoop, hf, hrec]

theorem mergeLoop_no_finished (flag : Nat → Bool) (total : Nat) (out : String) :
    ∀ (l : List (ℚ × ℚ)) (i : Nat) (r : String),
      Ev.finished r ∉ (mergeLoop flag total out i l).1 := by
  intro l
  induction l with
  | nil => intro i r h; by_cases hf : flag i = true <;> simp [mergeLoop, hf] at h
  | cons x rest ih =>
    intro i r h
    by_cases hf : flag i = true
    · simp [mergeLoop, hf] at h
    · simp only [mergeLoop, hf, if_false, Bool.false_eq_true, List.mem_cons] at h
      rcases h with h | h | h | h
      · cases h
      · cases h
      · cases h
      · exact ih (i + 1) r h

theorem mergeLoop_no_errorSig (flag : Nat → Bool) (total : Nat) (out : String) :
    ∀ (l : List (ℚ × ℚ)) (i : Nat) (r : String),
      Ev.errorSig r ∉ (mergeLoop flag total out i l).1 := by
  intro l
  induction l with
  | nil => intro i r h; by_cases hf : flag i = true <;> simp [mergeLoop, hf] at h
  | cons x rest ih =>
    intro i r h
    by_cases hf : flag i = true
    · simp [mergeLoop, hf] at h
    · simp only [mergeLoop, hf, if_false, Bool.false_eq_true, List.mem_cons] at h
      rcases h with h | h | h | h
      · cases h
      · cases h
      · cases h
      · exact ih (i + 1) r h

theorem segLoop_eq_cons (flag : Nat → Bool) (total : Nat) (template : List TmplPart)
    (baseData : List (String × String)) (ext dir : String) (i : Nat) (x : ℚ × ℚ)
    (rest : List (ℚ × ℚ)) :
    segLoop flag total template baseData ext dir i (x :: rest) =
      if flag i then ([], .ok "Cancelled")
      else
        match format_output_filename template (segLoopData baseData i x) with
        | .error e => ([], .error e)
        | .ok outputName =>
            let r := segLoop flag total template baseData ext dir (i + 1) rest
            (Ev.clipStarted (i + 1) total ::
              Ev.stepChanged ("Exporting clip " ++ toString (i + 1) ++ " of " ++
                toString total ++ ": " ++ outputName ++ ext) ::
              Ev.trim i :: r.1, r.2) := rfl

theorem segLoop_first_error (flag : Nat → Bool) (total : Nat) (template : List TmplPart)
    (baseData : List (String × String)) (ext dir : String) (i : Nat) (x : ℚ × ℚ)
    (rest : List (ℚ × ℚ)) (e : JobError)
    (hflag : flag i = false)
    (hm : format_output_filename template (segLoopData baseData i x) = .error e) :
    segLoop flag total template baseData ext dir i (x :: rest) = ([], .error e) := by
  rw [segLoop_eq_cons, if_neg (show ¬(flag i = true) by simp [hflag]), hm]

theorem segLoop_trim_flag (flag : Nat → Bool) (total : Nat) (template : List TmplPart)
    (baseData : List (String × String)) (ext dir : String) :
    ∀ (l : List (ℚ × ℚ)) (i j : Nat),
      Ev.trim j ∈ (segLoop flag total template baseData ext dir i l).1 → flag j = false := by
  intro l
  induction l with
  | nil => intro i j h; simp [segLoop] at h
  | cons x rest ih =>
    intro i j h
    rw [segLoop_eq_cons] at h
    by_cases hf : flag i = true
    · simp [hf] at h
    · rw [if_neg hf] at h
      cases hfmt : format_output_filename template (segLoopData baseData i x) with
      | error e => rw [hfmt] at h; simp at h
      | ok v =>
        rw [hfmt] at h
        simp only [List.mem_cons] at h
        rcases h with h | h | h | h
        · cases h
        · cases h
        · cases h; exact Bool.eq_false_iff.mpr hf
        · exact ih (i + 1) j h

theorem segLoop_cancelled (flag : Nat → Bool) (total : Nat) (template : List TmplPart)
    (baseData : List (String × String)) (ext dir : String)
    (hfmt : ∀ (i : Nat) (raw : ℚ × ℚ),
      ∃ v, format_output_filename template (segLoopData baseData i raw) = .ok v) :
    ∀ (l : List (ℚ × ℚ)) (i : Nat),
      (∃ k, i ≤ k ∧ k < i + l.length ∧ flag k = true) →
      (segLoop flag total template baseData ext dir i l).2 = .ok "Cancelled" := by
  intro l
  induction l with
  | nil =>
    intro i ⟨k, hik, hki, _⟩
    exact absurd hki (by simp; omega)
  | cons x rest ih =>
    intro i ⟨k, hik, hki, hk⟩
    rw [segLoop_eq_cons]
    by_cases hf : flag i = true
    · simp [hf]
    · rw [if_neg hf]
      obtain ⟨v, hv⟩ := hfmt i x
      rw [hv]
      have hlt : i + 1 ≤ k := by
        rcases Nat.eq_or_lt_of_le hik with h | h
        · exact absurd (h ▸ hk) hf
        · omega
      have hki' : k < i + 1 + rest.length := by simp [List.length_cons] at hki; omega
      exact ih (i + 1) ⟨k, hlt, hki', hk⟩

theorem segLoop_no_finished (flag : Nat → Bool) (total : Nat) (template : List TmplPart)
    (baseData : List (String × String)) (ext dir : String) :
    ∀ (l : List (ℚ × ℚ)) (i : Nat) (r : String),
      Ev.finished r ∉ (segLoop flag total template baseData ext dir i l).1 := by
  intro l
  induction l with
  | nil => intro i r h; simp [segLoop] at h
  | cons x rest ih =>
    intro i r h
    rw [segLoop_eq_cons] at h
    by_cases hf : flag i = true
    · simp [hf] at h
    · rw [if_neg hf] at h
      cases hfmt : format_output_filename template (segLoopData baseData i x) with
      | error e => rw [hfmt] at h; simp at h
      | ok v =>
        rw [hfmt] at h
        simp only [List.mem_cons] at h
        rcases h with h | h | h | h
        · cases h
        · cases h
        · cases h
        · exact ih (i + 1) r h

theorem segLoop_no_errorSig (flag : Nat → Bool) (total : Nat) (template : List TmplPart)
    (baseData : List (String × String)) (ext dir : String) :
    ∀ (l : List (ℚ × ℚ)) (i : Nat) (r : String),
      Ev.errorSig r ∉ (segLoop flag total template baseData ext dir i l).1 := by
  intro l
  induction l with
  | nil => intro i r h; simp [segLoop] at h
  | cons x rest ih =>
    intro i r h
    rw [segLoop_eq_cons] at h
    by_cases hf : flag i = true
    · simp [hf] at h
    · rw [if_neg hf] at h
      cases hfmt : format_output_filename template (segLoopData baseData i x) with
      | error e => rw [hfmt] at h; simp at h
      | ok v =>
        rw [hfmt] at h
        simp only [List.mem_cons] at h
        rcases h with h | h | h | h
        · cases h
        · cases h
        · cases h
        · exact ih (i + 1) r h

theorem segLoop_no_mergeProc (flag : Nat → Bool) (total : Nat) (template : List TmplPart)
    (baseData : List (String × String)) (ext dir : String) :
    ∀ (l : List (ℚ × ℚ)) (i : Nat),
      Ev.mergeProc ∉ (segLoop flag total template baseData ext dir i l).1 := by
  intro l
  induction l with
  | nil => intro i h; simp [segLoop] at h
  | cons x rest ih =>
    intro i h
    rw [segLoop_eq_cons] at h
    by_cases hf : flag i = true
    · simp [hf] at h
    · rw [if_neg hf] at h
      cases hfmt : format_output_filename template (segLoopData baseData i x) with
      | error e => rw [hfmt] at h; simp at h
      | ok v =>
        rw [hfmt] at h
        simp only [List.mem_cons] at h
        rcases h with h | h | h | h
        · cases h
        · cases h
        · cases h
        · exact ih (i + 1) h

/-- The job on a non-degenerate configuration: unfolds the two validation
branches. -/
theorem run_powertrim_job_eq (s : Settings) (env : Env) (flag : Nat → Bool)
    (hne : s.segmentsRaw ≠ []) (hfps : ¬(s.mode = .frames ∧ env.meta.fps = 0)) :
    run_powertrim_job s env flag =
      ((if s.autocrop then [Ev.probe, Ev.cropDetect] else [Ev.probe]) ++
        (if s.merge then mergeLoop flag s.segmentsRaw.length s.outputFile 0 s.segmentsRaw
         else segLoop flag s.segmentsRaw.length s.outputTemplate (baseTemplateData s env)
           (videoExtension s.videoMode s.inputExt) s.outputDir 0 s.segmentsRaw).1,
       (if s.merge then mergeLoop flag s.segmentsRaw.length s.outputFile 0 s.segmentsRaw
        else segLoop flag s.segmentsRaw.length s.outputTemplate (baseTemplateData s env)
          (videoExtension s.videoMode s.inputExt) s.outputDir 0 s.segmentsRaw).2) := by
  have h1 : s.segmentsRaw.isEmpty = false := by simp [List.isEmpty_iff, hne]
  simp only [run_powertrim_job, h1, Bool.false_eq_true, if_false, hfps]

/-! ## C1: unknown template placeholders -/

/-- C1 counterexample: with the unknown placeholder `{bogus}` in the
template, a merge-mode export runs to completion — the probe, both trims and
the merge process are all launched and the job returns the merged path — so
no configuration `ValueError` is raised before (or indeed after) any external
process starts, contradicting the claim for the merge output mode. -/
theorem template_unknown_counterexample :
    (run_powertrim_job bogusMergeSettings exampleEnv (fun _ => false)).2 =
        Except.ok "out.mp4" ∧
      Ev.probe ∈ (run_powertrim_job bogusMergeSettings exampleEnv (fun _ => false)).1 ∧
      Ev.trim 0 ∈ (run_powertrim_job bogusMergeSettings exampleEnv (fun _ => false)).1 ∧
      Ev.mergeProc ∈ (run_powertrim_job bogusMergeSettings exampleEnv (fun _ => false)).1 := by
  refine ⟨rfl, ?_, ?_, ?_⟩ <;> decide

/-- C1 amended: in the non-merge mode an unknown placeholder makes the job
raise `ValueError` while computing the first segment's output name — after
the metadata probe (and the crop detection, if requested) has already run,
but before any trim or merge process is launched; in the merge mode the
engine never expands the output template, so no such error is raised and the
job completes. -/
theorem template_unknown_behavior (s : Settings) (env : Env)
    (hu : templateHasUnknown s.outputTemplate)
    (hne : s.segmentsRaw ≠ [])
    (hfps : ¬(s.mode = .frames ∧ env.meta.fps = 0)) :
    (s.merge = false →
      (∃ m, (run_powertrim_job s env (fun _ => false)).2 = .error (.valueError m)) ∧
      (∀ i, Ev.trim i ∉ (run_powertrim_job s env (fun _ => false)).1) ∧
      Ev.mergeProc ∉ (run_powertrim_job s env (fun _ => false)).1) ∧
    (s.merge = true →
      ∃ p, (run_powertrim_job s env (fun _ => false)).2 = Except.ok p) := by
  rw [run_powertrim_job_eq s env _ hne hfps]
  obtain ⟨x, rest, hxr⟩ : ∃ x rest, s.segmentsRaw = x :: rest := by
    cases h : s.segmentsRaw with
    | nil => exact absurd h hne
    | cons x rest => exact ⟨x, rest, rfl⟩
  constructor
  · intro hmerge
    rw [hmerge, if_neg (show ¬(false = true) by simp), hxr]
    have hdata := segData_keys_listed s env (toString (0 + 1)) (toString (pyInt x.1))
      (toString (pyInt x.2))
    obtain ⟨m, hm⟩ := format_error_of_unknown s.outputTemplate _ hdata hu
    rw [segLoop_first_error _ _ _ _ _ _ 0 x rest (.valueError m) rfl hm]
    refine ⟨⟨m, rfl⟩, ?_, ?_⟩
    · intro i h
      by_cases hc : s.autocrop <;> simp [hc] at h
    · intro h
      by_cases hc : s.autocrop <;> simp [hc] at h
  · intro hmerge
    rw [hmerge, if_pos rfl]
    exact ⟨s.outputFile, mergeLoop_result_flagOff _ _ _ _⟩

/-- Witness for the amended C1 at the concrete bogus non-merge settings. -/
theorem template_unknown_behavior_witness :
    ∃ m, (run_powertrim_job { bogusMergeSettings with merge := false } exampleEnv
        (fun _ => false)).2 = .error (.valueError m) :=
  (template_unknown_behavior { bogusMergeSettings with merge := false } exampleEnv
    ⟨"bogus", by decide, by decide⟩ (by decide) (by decide)).1 rfl |>.1

/-! ## C2: cancellation before a segment's trim -/

/-- C2 counterexample: on a two-segment non-merge job whose cancellation flag
becomes set after segment 0's loop iteration, segment 1's trim indeed never
starts — but the caller observes *no* `finished` callback at all (in
particular not `finished("Cancelled")`): `ExportWorker.run` suppresses the
emission whenever `_is_cancelled` is set. -/
theorem cancelled_finished_counterexample :
    Ev.trim 1 ∉ workerRun exampleSettings exampleEnv (fun k => decide (1 ≤ k)) ∧
      Ev.finished "Cancelled" ∉
        workerRun exampleSettings exampleEnv (fun k => decide (1 ≤ k)) := by
  refine ⟨?_, ?_⟩ <;> decide

/-- C2 amended: if the cancellation flag is set before segment `i`'s trim
begins, the trim of segment `i` and of every later segment is never started,
no merge process is started, and the job stops immediately returning the
`"Cancelled"` marker — a normal terminal state distinct from failure; the
worker however suppresses its terminal callbacks, so the caller observes
neither a `finished` nor an `error` signal. -/
theorem cancellation_stops_job (s : Settings) (env : Env) (flag : Nat → Bool) (i : Nat)
    (hmono : MonotoneFlag flag) (hi : flag i = true) (hiN : i < s.segmentsRaw.length)
    (hok : templateOk s.outputTemplate)
    (hfps : ¬(s.mode = .frames ∧ env.meta.fps = 0)) :
    (run_powertrim_job s env flag).2 = .ok "Cancelled" ∧
    (∀ j, i ≤ j → Ev.trim j ∉ (run_powertrim_job s env flag).1) ∧
    Ev.mergeProc ∉ (run_powertrim_job s env flag).1 ∧
    workerRun s env flag = (run_powertrim_job s env flag).1 ∧
    (∀ r, Ev.finished r ∉ workerRun s env flag) ∧
    (∀ m, Ev.errorSig m ∉ workerRun s env flag) := by
  have hne : s.segmentsRaw ≠ [] := by
    intro h; rw [h] at hiN; simp at hiN
  have hfmt : ∀ (k : Nat) (raw : ℚ × ℚ),
      ∃ v, format_output_filename s.outputTemplate
        (segLoopData (baseTemplateData s env) k raw) = .ok v := by
    intro k raw
    exact format_ok_of_templateOk _ _
      (segData_lookup_isSome s env (toString (k + 1)) (toString (pyInt raw.1))
        (toString (pyInt raw.2))) hok
  have hres : (if s.merge then
        mergeLoop flag s.segmentsRaw.length s.outputFile 0 s.segmentsRaw
      else segLoop flag s.segmentsRaw.length s.outputTemplate (baseTemplateData s env)
        (videoExtension s.videoMode s.inputExt) s.outputDir 0 s.segmentsRaw).2 =
      .ok "Cancelled" := by
    by_cases hmg : s.merge
    · rw [if_pos hmg]
      exact mergeLoop_cancelled flag _ _ s.segmentsRaw 0 ⟨i, Nat.zero_le i, by omega, hi⟩
    · rw [if_neg hmg]
      exact segLoop_cancelled flag _ _ _ _ _ hfmt s.segmentsRaw 0 ⟨i, Nat.zero_le i, by omega, hi⟩
  have htrace := run_powertrim_job_eq s env flag hne hfps
  have hresult : (run_powertrim_job s env flag).2 = .ok "Cancelled" := by
    rw [htrace]; exact hres
  have hpre : ∀ e, e ∈ (if s.autocrop then [Ev.probe, Ev.cropDetect] else [Ev.probe]) →
      e = Ev.probe ∨ e = Ev.cropDetect := by
    intro e he
    by_cases hc : s.autocrop <;> simp [hc] at he <;> tauto
  have hflagN : flag (s.segmentsRaw.length + 1) = true := hmono i _ (by omega) hi
  have hw : workerRun s env flag = (run_powertrim_job s env flag).1 := by
    simp [workerRun, hresult, hflagN]
  refine ⟨hresult, ?_, ?_, ?_, ?_, ?_⟩
  · intro j hij hmem
    rw [htrace] at hmem
    simp only [List.mem_append] at hmem
    rcases hmem with h | h
    · rcases hpre _ h with h' | h' <;> cases h'
    · have hjf : flag j = false := by
        by_cases hmg : s.merge
        · rw [if_pos hmg] at h; exact mergeLoop_trim_flag flag _ _ s.segmentsRaw 0 j h
        · rw [if_neg hmg] at h; exact segLoop_trim_flag flag _ _ _ _ _ s.segmentsRaw 0 j h
      rw [hmono i j hij hi] at hjf
      cases hjf
  · intro hmem
    rw [htrace] at hmem
    simp only [List.mem_append] at hmem
    rcases hmem with h | h
    · rcases hpre _ h with h' | h' <;> cases h'
    · by_cases hmg : s.merge
      · rw [if_pos hmg] at h
        have := mergeLoop_mergeProc_flag flag _ _ s.segmentsRaw 0 h
        rw [Nat.zero_add] at this
        rw [hmono i s.segmentsRaw.length (by omega) hi] at this
        cases this
      · rw [if_neg hmg] at h
        exact segLoop_no_mergeProc flag _ _ _ _ _ s.segmentsRaw 0 h
  · exact hw
  · intro r hmem
    rw [hw, htrace] at hmem
    simp only [List.mem_append] at hmem
    rcases hmem with h | h
    · rcases hpre _ h with h' | h' <;> cases h'
    · by_cases hmg : s.merge
      · rw [if_pos hmg] at h; exact mergeLoop_no_finished flag _ _ s.segmentsRaw 0 r h
      · rw [if_neg hmg] at h; exact segLoop_no_finished flag _ _ _ _ _ s.segmentsRaw 0 r h
  · intro m hmem
    rw [hw, htrace] at hmem
    simp only [List.mem_append] at hmem
    rcases hmem with h | h
    · rcases hpre _ h with h' | h' <;> cases h'
    · by_cases hmg : s.merge
      · rw [if_pos hmg] at h; exact mergeLoop_no_errorSig flag _ _ s.segmentsRaw 0 m h
      · rw [if_neg hmg] at h; exact segLoop_no_errorSig flag _ _ _ _ _ s.segmentsRaw 0 m h

/-- Witness for the amended C2: cancellation set from check point 1 on the
two-segment example job yields the `"Cancelled"` job result. -/
theorem cancellation_stops_job_witness :
    (run_powertrim_job exampleSettings exampleEnv (fun k => decide (1 ≤ k))).2 =
      .ok "Cancelled" :=
  (cancellation_stops_job exampleSettings exampleEnv (fun k => decide (1 ≤ k)) 1
    (by
      intro j k hjk hj
      simp only [decide_eq_true_iff] at hj ⊢
      omega)
    (by decide) (by decide)
    (by
      intro n hn
      simp only [exampleSettings, okTemplate, List.mem_cons, List.not_mem_nil,
        or_false] at hn
      rcases hn with hn | hn | hn <;> first | (cases hn; decide) | cases hn)
    (by decide)).1

/-! ## C3: track-mapper ordering and dispositions -/

instance keyLe_total (p : List String) : IsTotal Stream (keyLe p) :=
  ⟨by intro a b; unfold keyLe; omega⟩

instance keyLe_trans (p : List String) : IsTrans Stream (keyLe p) :=
  ⟨by intro a b c hab hbc; unfold keyLe at *; omega⟩

/-- C3 counterexample: with priority `["und", "eng"]`, a stream carrying no
language tag is treated by the source as tagged `"und"` and therefore sorts
at position 0 — *before* the `eng` stream — whereas the claim places an
absent language after all listed priorities.  The code's output and the
claim-worded output disagree on the order (and hence on which stream is
default). -/
theorem track_mapper_sort_counterexample :
    generate_ffmpeg_mapping_args cexStreams [1, 2] ["und", "eng"] =
        ["-map", "0:2", "-disposition:a:0", "default", "-map", "0:1",
          "-disposition:a:1", "0", "-sn"] ∧
      generateMappingClaim cexStreams [1, 2] ["und", "eng"] =
        ["-map", "0:1", "-disposition:a:0", "default", "-map", "0:2",
          "-disposition:a:1", "0", "-sn"] ∧
      generate_ffmpeg_mapping_args cexStreams [1, 2] ["und", "eng"] ≠
        generateMappingClaim cexStreams [1, 2] ["und", "eng"] := by
  refine ⟨?_, ?_, ?_⟩ <;> decide

/-- C3 amended: the track mapper includes exactly the audio and subtitle
streams whose ids are selected, each type independently sorted with primary
key the position in the priority list of the stream's *effective* language
tag (its lowercased tag, an absent tag counting as `"und"`; an effective tag
not occurring in the list sorts after all listed priorities) and secondary
key stream id ascending; the first stream of each sorted type is marked
default disposition and all subsequent streams of that type get their
disposition cleared; on the spec's example the output order is `[2, 1, 3]`
with only stream 2 default. -/
theorem track_mapper_behavior :
    (∀ (streams : List Stream) (sel : List Nat) (prio : List String),
      ∃ la ls,
        la.Perm (selectedTracks "audio" streams sel) ∧
        ls.Perm (selectedTracks "subtitle" streams sel) ∧
        la.Sorted (keyLe prio) ∧ ls.Sorted (keyLe prio) ∧
        generate_ffmpeg_mapping_args streams sel prio =
          videoMapArgs streams ++
            (if la.isEmpty then ["-an"] else dispositionBlock "a" la) ++
            (if ls.isEmpty then ["-sn"] else dispositionBlock "s" ls)) ∧
    generate_ffmpeg_mapping_args exampleStreams [1, 2, 3] ["jpn", "eng"] =
      ["-map", "0:0", "-map", "0:2", "-disposition:a:0", "default", "-map", "0:1",
        "-disposition:a:1", "0", "-map", "0:3", "-disposition:a:2", "0", "-sn"] := by
  constructor
  · intro streams sel prio
    refine ⟨(selectedTracks "audio" streams sel).insertionSort (keyLe prio),
      (selectedTracks "subtitle" streams sel).insertionSort (keyLe prio),
      List.perm_insertionSort _ _, List.perm_insertionSort _ _,
      List.sorted_insertionSort _ _, List.sorted_insertionSort _ _, rfl⟩
  · decide

/-! ## List lemmas for the Segment Store proofs -/

theorem keepAux_nil (off : Nat) (l : List α) : keepAux off ([] : List Nat) l = l := by
  induction l generalizing off with
  | nil => rfl
  | cons a t ih => simp [keepAux, ih]

theorem keepAux_high (l : List α) : ∀ (off : Nat) (s : List Nat),
    (∀ j ∈ s, j < off) → keepAux off s l = l := by
  induction l with
  | nil => intro off s _; rfl
  | cons a t ih =>
    intro off s hs
    have hoff : off ∉ s := fun h => absurd (hs off h) (lt_irrefl off)
    simp only [keepAux, if_neg hoff]
    rw [ih (off + 1) s (fun j hj => Nat.lt_succ_of_lt (hs j hj))]

theorem keepAux_drop_low : ∀ (l : List α) (off j : Nat) (s : List Nat), j < off →
    keepAux off (j :: s) l = keepAux off s l := by
  intro l
  induction l with
  | nil => intro off j s _; rfl
  | cons a t ih =>
    intro off j s hj
    by_cases hmem : off ∈ s
    · simp only [keepAux, if_pos (List.mem_cons_of_mem _ hmem), if_pos hmem]
      exact ih (off + 1) j s (by omega)
    · have hno : off ∉ j :: s := by
        simp only [List.mem_cons, not_or]
        exact ⟨by omega, hmem⟩
      simp only [keepAux, if_neg hno, if_neg hmem]
      rw [ih (off + 1) j s (by omega)]

theorem keepAux_congr : ∀ (l : List α) (off : Nat) (s s' : List Nat),
    (∀ j, j ∈ s ↔ j ∈ s') → keepAux off s l = keepAux off s' l := by
  intro l
  induction l with
  | nil => intro off s s' _; rfl
  | cons a t ih =>
    intro off s s' hss
    by_cases h : off ∈ s
    · simp only [keepAux, if_pos h, if_pos ((hss off).mp h)]
      exact ih _ _ _ hss
    · simp only [keepAux, if_neg h, if_neg (fun h' => h ((hss off).mpr h'))]
      rw [ih _ _ _ hss]

theorem keep_erase (i : Nat) (s : List Nat) (hs : ∀ j ∈ s, j < i) :
    ∀ (l : List α) (off : Nat), off ≤ i → i - off < l.length →
      keepAux off (i :: s) l = keepAux off s (l.eraseIdx (i - off)) := by
  intro l
  induction l with
  | nil => intro off _ h; simp at h
  | cons a t ih =>
    intro off hoff hlt
    rcases Nat.eq_or_lt_of_le hoff with heq | hstrict
    · subst heq
      rw [Nat.sub_self, List.eraseIdx_cons_zero]
      have hmem : off ∈ off :: s := by simp
      simp only [keepAux, if_pos hmem]
      rw [keepAux_high t (off + 1) (off :: s) (by
        intro j hj
        rcases List.mem_cons.mp hj with rfl | hj'
        · omega
        · have := hs j hj'; omega)]
      rw [keepAux_high t off s (fun j hj => hs j hj)]
    · have hsub : i - off = (i - (off + 1)) + 1 := by omega
      have hlen : i - (off + 1) < t.length := by
        rw [List.length_cons] at hlt; omega
      rw [hsub, List.eraseIdx_cons_succ]
      by_cases hmem : off ∈ s
      · simp only [keepAux, if_pos (List.mem_cons_of_mem _ hmem), if_pos hmem]
        rw [ih (off + 1) hstrict hlen]
      · have hno : off ∉ i :: s := by
          simp only [List.mem_cons, not_or]
          exact ⟨by omega, hmem⟩
        simp only [keepAux, if_neg hno, if_neg hmem]
        rw [ih (off + 1) hstrict hlen]

theorem foldl_removeSegment_desc : ∀ (ds : List Nat) (l : List Segment),
    List.Pairwise (· > ·) ds → (∀ i ∈ ds, i < l.length) →
    ds.foldl removeSegment l = keepAux 0 ds l := by
  intro ds
  induction ds with
  | nil => intro l _ _; rw [List.foldl_nil, keepAux_nil]
  | cons d rest ih =>
    intro l hp hin
    have hd : d < l.length := hin d (by simp)
    have hgt : ∀ j ∈ rest, j < d := fun j hj => (List.pairwise_cons.mp hp).1 j hj
    rw [List.foldl_cons, show removeSegment l d = l.eraseIdx d by
      rw [removeSegment, if_pos hd]; rfl]
    have hlen : (l.eraseIdx d).length = l.length - 1 := by
      rw [List.length_eraseIdx]; simp [hd]
    rw [ih (l.eraseIdx d) (List.pairwise_cons.mp hp).2 (by
      intro j hj; rw [hlen]; have := hgt j hj; omega)]
    have hke := keep_erase d rest hgt l 0 (Nat.zero_le d) (by simpa using hd)
    rw [Nat.sub_zero] at hke
    exact hke.symm

theorem pyInsert_zero (x : α) (l : List α) : pyInsert 0 x l = x :: l := by
  simp [pyInsert]

theorem pyInsert_succ_cons (n : Nat) (x a : α) (l : List α) :
    pyInsert (n + 1) x (a :: l) = a :: pyInsert n x l := by
  simp [pyInsert]

theorem length_pyInsert (i : Nat) (x : α) (l : List α) :
    (pyInsert i x l).length = l.length + 1 := by
  simp [pyInsert, List.length_take, List.length_drop]
  omega

theorem insert_keepAux (i : Nat) (s : List Nat) (hs : ∀ j ∈ s, i < j) :
    ∀ (l : List α) (off : Nat) (x : α), off ≤ i → l.get? (i - off) = some x →
      pyInsert (i - off) x (keepAux off (i :: s) l) = keepAux off s l := by
  intro l
  induction l with
  | nil => intro off x _ h; simp at h
  | cons a t ih =>
    intro off x hoff hget
    rcases Nat.eq_or_lt_of_le hoff with heq | hstrict
    · subst heq
      rw [Nat.sub_self] at hget ⊢
      have hx : x = a := by
        rw [List.get?_cons_zero] at hget
        exact (Option.some_inj.mp hget).symm
      subst hx
      have hnotmem : off ∉ s := fun h => absurd (hs off h) (lt_irrefl off)
      have hmem : off ∈ off :: s := by simp
      simp only [keepAux, if_pos hmem, if_neg hnotmem]
      rw [pyInsert_zero]
      congr 1
      exact keepAux_drop_low t (off + 1) off s (Nat.lt_succ_self off)
    · have hsub : i - off = (i - (off + 1)) + 1 := by omega
      have hnotmem_s : off ∉ s := fun h => absurd (hs off h) (by omega)
      have hnotmem : off ∉ i :: s := by
        simp only [List.mem_cons, not_or]
        exact ⟨by omega, hnotmem_s⟩
      simp only [keepAux, if_neg hnotmem, if_neg hnotmem_s]
      rw [hsub] at hget ⊢
      rw [List.get?_cons_succ] at hget
      rw [pyInsert_succ_cons]
      congr 1
      exact ih (off + 1) x hstrict hget

theorem foldl_insert_back (d : α) : ∀ (asc : List Nat) (l : List α),
    List.Pairwise (· < ·) asc → (∀ i ∈ asc, i < l.length) →
    List.foldl (fun acc (p : Nat × α) => pyInsert p.1 p.2 acc)
      (keepAux 0 asc l) (asc.map (fun i => (i, (l.get? i).getD d))) = l := by
  intro asc
  induction asc with
  | nil => intro l _ _; simp [keepAux_nil]
  | cons i rest ih =>
    intro l hp hin
    rw [List.map_cons, List.foldl_cons]
    have hi : i < l.length := hin i (by simp)
    have hx : l.get? i = some (l.get ⟨i, hi⟩) := List.get?_eq_get hi
    have hgd : (l.get? i).getD d = l.get ⟨i, hi⟩ := by rw [hx]; rfl
    have h1 : pyInsert i (l.get ⟨i, hi⟩) (keepAux 0 (i :: rest) l) = keepAux 0 rest l := by
      have := insert_keepAux i rest (fun j hj => (List.pairwise_cons.mp hp).1 j hj) l 0
        (l.get ⟨i, hi⟩) (Nat.zero_le i) (by rw [Nat.sub_zero]; exact hx)
      rwa [Nat.sub_zero] at this
    simp only [hgd, h1]
    exact ih l (List.pairwise_cons.mp hp).2 (fun j hj => hin j (List.mem_cons_of_mem _ hj))

theorem eraseIdx_append_length (A B : List α) (x : α) :
    (A ++ x :: B).eraseIdx A.length = A ++ B := by
  induction A with
  | nil => rfl
  | cons a t ih => simp only [List.cons_append, List.length_cons, List.eraseIdx_cons_succ, ih]

theorem removeSegment_pyInsert (m : Nat) (x : Segment) (K : List Segment) (hm : m ≤ K.length) :
    removeSegment (pyInsert m x K) m = K := by
  have hlen : (pyInsert m x K).length = K.length + 1 := length_pyInsert m x K
  rw [removeSegment, if_pos (by omega)]
  have htake : (K.take m).length = m := by rw [List.length_take]; omega
  have he := eraseIdx_append_length (K.take m) (K.drop m) x
  rw [htake] at he
  show (K.take m ++ x :: K.drop m).eraseIdx m = K
  rw [he, List.take_append_drop]

theorem pyInsert_eraseIdx : ∀ (l : List α) (i : Nat) (x : α), l.get? i = some x →
    pyInsert i x (l.eraseIdx i) = l := by
  intro l
  induction l with
  | nil => intro i x h; simp at h
  | cons a t ih =>
    intro i x h
    cases i with
    | zero =>
      rw [List.get?_cons_zero] at h
      rw [List.eraseIdx_cons_zero, pyInsert_zero, Option.some_inj.mp h]
    | succ n =>
      rw [List.get?_cons_succ] at h
      rw [List.eraseIdx_cons_succ, pyInsert_succ_cons, ih n x h]

theorem le_length_keepAux : ∀ (l : List α) (off m : Nat) (s : List Nat),
    m ≤ l.length → (∀ j ∈ s, off + m ≤ j) → m ≤ (keepAux off s l).length := by
  intro l
  induction l with
  | nil => intro off m s hm _; exact hm
  | cons a t ih =>
    intro off m s hm hs
    cases m with
    | zero => exact Nat.zero_le _
    | succ m' =>
      have hoff : off ∉ s := fun h => by have := hs off h; omega
      simp only [keepAux, if_neg hoff, List.length_cons]
      have := ih (off + 1) m' s (by simp at hm; omega) (fun j hj => by have := hs j hj; omega)
      omega

theorem getLast_le_of_sorted_ge : ∀ (l : List Nat) (h : l ≠ []),
    List.Pairwise (· ≥ ·) l → ∀ x ∈ l, l.getLast h ≤ x := by
  intro l
  induction l with
  | nil => intro h; exact absurd rfl h
  | cons a t ih =>
    intro h hp x hx
    cases t with
    | nil =>
      simp only [List.mem_singleton] at hx
      subst hx
      simp [List.getLast]
    | cons b t' =>
      rw [List.getLast_cons (by simp)]
      rcases List.mem_cons.mp hx with rfl | hx'
      · have h1 := ih (by simp) (List.pairwise_cons.mp hp).2 b (by simp)
        have h2 : x ≥ b := (List.pairwise_cons.mp hp).1 b (by simp)
        omega
      · exact ih (by simp) (List.pairwise_cons.mp hp).2 x hx'

/-! ## Segment constructor lemmas -/

theorem mkSegment_name_ne (d : SegData) : (mkSegment d).name ≠ "" := by
  unfold mkSegment
  dsimp only
  split
  · intro hc
    have hl := congrArg String.length hc
    simp only [String.length_append] at hl
    have h9 : ("Segment [" : String).length = 9 := rfl
    have h0 : ("" : String).length = 0 := rfl
    omega
  · next h => exact h

theorem mkSegment_data (seg : Segment) (h : seg.name ≠ "") : mkSegment seg.data = seg := by
  obtain ⟨s, e, c, n⟩ := seg
  simp only [Segment.data] at h ⊢
  unfold mkSegment
  simp only [h, if_false]

/-! ## Sorting facts for the stored index lists -/

theorem sortDesc_perm (l : List Nat) : List.Perm (sortDesc l) l := List.perm_insertionSort _ l

theorem sortAsc_perm (l : List Nat) : List.Perm (sortAsc l) l := List.perm_insertionSort _ l

theorem sortDesc_pairwise_ge (l : List Nat) : List.Pairwise (· ≥ ·) (sortDesc l) :=
  List.sorted_insertionSort _ l

theorem sortAsc_pairwise_le (l : List Nat) : List.Pairwise (· ≤ ·) (sortAsc l) :=
  List.sorted_insertionSort _ l

theorem sortDesc_pairwise_gt (l : List Nat) (h : l.Nodup) :
    List.Pairwise (· > ·) (sortDesc l) := by
  have hnd : (sortDesc l).Nodup := (sortDesc_perm l).symm.nodup h
  exact ((sortDesc_pairwise_ge l).and hnd).imp
    (fun hab => lt_of_le_of_ne hab.1 (Ne.symm hab.2))

theorem sortAsc_pairwise_lt (l : List Nat) (h : l.Nodup) :
    List.Pairwise (· < ·) (sortAsc l) := by
  have hnd : (sortAsc l).Nodup := (sortAsc_perm l).symm.nodup h
  exact ((sortAsc_pairwise_le l).and hnd).imp
    (fun hab => lt_of_le_of_ne hab.1 hab.2)

theorem sortDesc_ne_nil (l : List Nat) (h : l ≠ []) : sortDesc l ≠ [] := by
  intro hc
  have hp := sortDesc_perm l
  rw [hc] at hp
  exact h hp.symm.eq_nil

theorem sortAsc_ne_nil (l : List Nat) (h : l ≠ []) : sortAsc l ≠ [] := by
  intro hc
  have hp := sortAsc_perm l
  rw [hc] at hp
  exact h hp.symm.eq_nil

/-! ## Small store facts -/

theorem set_get_self : ∀ (l : List α) (i : Nat) (x : α), l.get? i = some x → l.set i x = l := by
  intro l
  induction l with
  | nil => intro i x h; simp at h
  | cons a t ih =>
    intro i x h
    cases i with
    | zero =>
      rw [List.get?_cons_zero] at h
      rw [List.set_cons_zero, Option.some_inj.mp h]
    | succ n =>
      rw [List.get?_cons_succ] at h
      rw [List.set_cons_succ, ih n x h]

theorem map_mk_data (l : List Segment) (hn : NamesOk l) :
    (l.map Segment.data).map mkSegment = l := by
  induction l with
  | nil => rfl
  | cons a t ih =>
    simp only [List.map_cons, List.cons.injEq]
    exact ⟨mkSegment_data a (hn a (by simp)),
      ih (fun s hs => hn s (List.mem_cons_of_mem _ hs))⟩

theorem removeSegment_subset (l : List Segment) (i : Nat) :
    ∀ x ∈ removeSegment l i, x ∈ l := by
  intro x hx
  rw [removeSegment] at hx
  split at hx
  · exact (List.eraseIdx_sublist l i).subset hx
  · exact hx

theorem foldl_removeSegment_subset : ∀ (ds : List Nat) (l : List Segment),
    ∀ x ∈ ds.foldl removeSegment l, x ∈ l := by
  intro ds
  induction ds with
  | nil => intro l x hx; exact hx
  | cons d rest ih =>
    intro l x hx
    rw [List.foldl_cons] at hx
    exact removeSegment_subset l d x (ih (removeSegment l d) x hx)

theorem mem_pyInsert (i : Nat) (y : α) (l : List α) :
    ∀ x ∈ pyInsert i y l, x = y ∨ x ∈ l := by
  intro x hx
  rw [pyInsert] at hx
  rcases List.mem_append.mp hx with h | h
  · exact Or.inr (List.take_subset i l h)
  · rcases List.mem_cons.mp h with rfl | h'
    · exact Or.inl rfl
    · exact Or.inr (List.drop_subset i l h')

theorem zip_self_map (l : List β) (f : β → γ) :
    l.zip (l.map f) = l.map (fun a => (a, f a)) := by
  induction l with
  | nil => rfl
  | cons a t ih => simp [ih]

/-! ## The merge command: execute and its inverse -/

/-- Executing a fresh `MergeSegmentsCommand` over distinct in-range indices
stored in descending order removes exactly the indexed segments and inserts
the merged one at the last stored (i.e. smallest) index, capturing the
original data in ascending index order. -/
theorem merge_exec_eq (idxs : List Nat) (merged : SegData) (k : Nat) (l : List Segment)
    (hdesc : List.Pairwise (· > ·) idxs) (hin : ∀ i ∈ idxs, i < l.length) :
    Cmd.exec (.merge idxs merged [] k) l =
      (pyInsert ((idxs.getLast?).getD 0) (mkSegment merged) (keepAux 0 idxs l),
        .merge idxs merged
          ((sortAsc idxs).map (fun i => ((l.get? i).getD (mkSegment (0, 0, 0, ""))).data))
          ((idxs.getLast?).getD 0)) := by
  simp only [Cmd.exec, List.isEmpty_nil, if_true]
  rw [foldl_removeSegment_desc idxs l hdesc hin]
  rfl

/-- Undo of an executed fresh merge command restores the store exactly. -/
theorem merge_exec_undo (idxs : List Nat) (merged : SegData) (k : Nat) (l : List Segment)
    (hne : idxs ≠ []) (hdesc : List.Pairwise (· > ·) idxs)
    (hin : ∀ i ∈ idxs, i < l.length) (hnames : NamesOk l) :
    Cmd.undoOp (Cmd.exec (.merge idxs merged [] k) l).2
      (Cmd.exec (.merge idxs merged [] k) l).1 = l := by
  rw [merge_exec_eq idxs merged k l hdesc hin]
  have hml : (idxs.getLast?).getD 0 = idxs.getLast hne := by
    rw [List.getLast?_eq_getLast idxs hne]; rfl
  have hmmem : (idxs.getLast?).getD 0 ∈ idxs := hml ▸ List.getLast_mem hne
  have hmlt : (idxs.getLast?).getD 0 < l.length := hin _ hmmem
  have hmle : ∀ j ∈ idxs, (idxs.getLast?).getD 0 ≤ j := by
    intro j hj
    rw [hml]
    exact getLast_le_of_sorted_ge idxs hne (hdesc.imp le_of_lt) j hj
  simp only [Cmd.undoOp]
  have hKlen : (idxs.getLast?).getD 0 ≤ (keepAux 0 idxs l).length :=
    le_length_keepAux l 0 _ idxs (le_of_lt hmlt) (fun j hj => by simpa using hmle j hj)
  rw [removeSegment_pyInsert _ _ _ hKlen]
  have hnodup : idxs.Nodup := hdesc.imp ne_of_gt
  have hasc_lt : List.Pairwise (· < ·) (sortAsc idxs) := sortAsc_pairwise_lt idxs hnodup
  have hasc_in : ∀ i ∈ sortAsc idxs, i < l.length :=
    fun i hi => hin i ((sortAsc_perm idxs).mem_iff.mp hi)
  rw [keepAux_congr l 0 idxs (sortAsc idxs) (fun j => ((sortAsc_perm idxs).mem_iff (a := j)).symm)]
  rw [zip_self_map, List.foldl_map]
  have hIB := foldl_insert_back (mkSegment (0, 0, 0, "")) (sortAsc idxs) l hasc_lt hasc_in
  rw [List.foldl_map] at hIB
  conv_rhs => rw [← hIB]
  apply List.foldl_ext
  intro acc i hi
  have hilt := hasc_in i hi
  obtain ⟨seg, hseg⟩ : ∃ seg, l.get? i = some seg := ⟨_, List.get?_eq_get hilt⟩
  simp only [hseg, Option.getD_some]
  rw [show addSegment acc seg.data (some i) = pyInsert i (mkSegment seg.data) acc from rfl]
  rw [mkSegment_data seg (hnames seg (List.get?_mem hseg))]

/-! ## Per-command inverse, replay determinism, and the name invariant -/

/-- A well-formed command's undo exactly inverts its execute. -/
theorem exec_undo_of_valid (c : Cmd) (l : List Segment) (hv : validCmd c l) (hn : NamesOk l) :
    Cmd.undoOp (c.exec l).2 (c.exec l).1 = l := by
  cases c with
  | add d =>
    simp only [Cmd.exec, Cmd.undoOp, addSegment]
    have hlen : (l ++ [mkSegment d]).length = l.length + 1 := by simp
    rw [hlen]
    simp only [Nat.add_sub_cancel]
    rw [removeSegment, if_pos (by simp)]
    have := eraseIdx_append_length l [] (mkSegment d)
    simpa using this
  | del i d =>
    obtain ⟨seg, hget, hd⟩ := hv
    have hi : i < l.length := by
      rcases List.get?_eq_some.mp hget with ⟨h, _⟩; exact h
    simp only [Cmd.exec, Cmd.undoOp]
    rw [removeSegment, if_pos hi]
    show pyInsert i (mkSegment d) (l.eraseIdx i) = l
    rw [hd, mkSegment_data seg (hn seg (List.get?_mem hget))]
    exact pyInsert_eraseIdx l i seg hget
  | update i old new =>
    obtain ⟨seg, hget, hold⟩ := hv
    have hi : i < l.length := by
      rcases List.get?_eq_some.mp hget with ⟨h, _⟩; exact h
    simp only [Cmd.exec, Cmd.undoOp]
    have h1 : updateSegment l i new = l.set i (mkSegment new) := by
      rw [updateSegment, if_pos hi]
    rw [h1, updateSegment, if_pos (by simpa using hi)]
    rw [List.set_set, hold, mkSegment_data seg (hn seg (List.get?_mem hget))]
    exact set_get_self l i seg hget
  | imp old new =>
    simp only [Cmd.exec, Cmd.undoOp, setSegments]
    rw [hv]
    exact map_mk_data l hn
  | merge idxs merged orig k =>
    obtain ⟨horig, hne, hdesc, hin⟩ := hv
    subst horig
    exact merge_exec_undo idxs merged k l hne hdesc hin hn

/-- Replaying an already-executed well-formed command from the same
pre-state produces the same result (redo determinism — in particular the
merge command does not re-capture `original_data`). -/
theorem exec_exec_of_valid (c : Cmd) (l : List Segment) (hv : validCmd c l) :
    Cmd.exec (c.exec l).2 l = c.exec l := by
  cases c with
  | add d => rfl
  | del i d => rfl
  | update i old new => rfl
  | imp old new => rfl
  | merge idxs merged orig k =>
    obtain ⟨horig, hne, hdesc, hin⟩ := hv
    subst horig
    rw [merge_exec_eq idxs merged k l hdesc hin]
    have horig' : ((sortAsc idxs).map
        (fun i => ((l.get? i).getD (mkSegment (0, 0, 0, ""))).data)).isEmpty = false := by
      rw [Bool.eq_false_iff]
      intro hc
      rw [List.isEmpty_iff, List.map_eq_nil_iff] at hc
      exact sortAsc_ne_nil idxs hne hc
    simp only [Cmd.exec, horig', Bool.false_eq_true, if_false]
    rw [foldl_removeSegment_desc idxs l hdesc hin]
    rfl

/-- Every execute keeps the all-names-nonempty invariant. -/
theorem namesOk_exec (c : Cmd) (l : List Segment) (hn : NamesOk l) :
    NamesOk (c.exec l).1 := by
  cases c with
  | add d =>
    intro s hs
    simp only [Cmd.exec, addSegment] at hs
    rcases List.mem_append.mp hs with h | h
    · exact hn s h
    · rw [List.mem_singleton.mp h]
      exact mkSegment_name_ne d
  | del i d =>
    intro s hs
    exact hn s (removeSegment_subset l i s hs)
  | update i old new =>
    intro s hs
    simp only [Cmd.exec, updateSegment] at hs
    split at hs
    · rcases List.mem_or_eq_of_mem_set hs with h | h
      · exact hn s h
      · rw [h]; exact mkSegment_name_ne new
    · exact hn s hs
  | imp old new =>
    intro s hs
    simp only [Cmd.exec, setSegments] at hs
    obtain ⟨d, _, rfl⟩ := List.mem_map.mp hs
    exact mkSegment_name_ne d
  | merge idxs merged orig k =>
    intro s hs
    simp only [Cmd.exec] at hs
    rcases mem_pyInsert _ _ _ s hs with h | h
    · rw [h]; exact mkSegment_name_ne merged
    · exact hn s (foldl_removeSegment_subset idxs l s h)

/-! ## Command Stack round trips (C5, C6) -/

theorem undoN_succ_outer : ∀ (n : Nat) (um : UndoManager),
    undoN (n + 1) um = (undoN n um).undoCall.1 := by
  intro n
  induction n with
  | zero => intro um; rfl
  | succ n ih =>
    intro um
    show undoN (n + 1) um.undoCall.1 = _
    rw [ih um.undoCall.1]
    rfl

/-- Core round-trip lemma: executing a well-formed command sequence, then
undoing it completely, restores the store and the done stack and leaves the
executed commands pending on the redo stack in an order whose complete redo
reproduces the post-execute manager exactly. -/
theorem executeAll_undoN_redoN : ∀ (cs : List Cmd) (l : List Segment) (done undone : List Cmd),
    NamesOk l → ValidSeq l cs →
    ∃ cs' : List Cmd,
      undoN cs.length (executeAll cs ⟨l, done, undone⟩) = ⟨l, done, cs'⟩ ∧
      redoN cs.length ⟨l, done, cs'⟩ = executeAll cs ⟨l, done, undone⟩ := by
  intro cs
  induction cs with
  | nil => intro l done undone _ _; exact ⟨undone, rfl, rfl⟩
  | cons c rest ih =>
    intro l done undone hn hv
    obtain ⟨hvc, hvrest⟩ := hv
    have hstep : executeAll (c :: rest) ⟨l, done, undone⟩ =
        executeAll rest ⟨(c.exec l).1, (c.exec l).2 :: done, []⟩ := rfl
    have hn1 : NamesOk (c.exec l).1 := namesOk_exec c l hn
    obtain ⟨cs', h1, h2⟩ := ih (c.exec l).1 ((c.exec l).2 :: done) [] hn1 hvrest
    refine ⟨(c.exec l).2 :: cs', ?_, ?_⟩
    · rw [List.length_cons, hstep, undoN_succ_outer, h1]
      simp only [UndoManager.undoCall]
      rw [exec_undo_of_valid c l hvc hn]
    · rw [List.length_cons, hstep]
      show redoN rest.length (UndoManager.redoCall ⟨l, done, (c.exec l).2 :: cs'⟩).1 = _
      have hred : (UndoManager.redoCall ⟨l, done, (c.exec l).2 :: cs'⟩).1 =
          ⟨(c.exec l).1, (c.exec l).2 :: done, cs'⟩ := by
        simp only [UndoManager.redoCall]
        rw [exec_exec_of_valid c l hvc]
      rw [hred, h2]

/-- C6: for every initial store, every initial stack contents and every
well-formed sequence of N command executions (add, delete, update, import,
merge — constructed the way the GUI constructs them), N undo calls return the
Segment Store exactly to its pre-sequence state, and N subsequent redo calls
reproduce exactly the state reached after the original N executions. -/
theorem execute_undo_redo_roundtrip (l : List Segment) (done undone cs : List Cmd)
    (hn : NamesOk l) (hv : ValidSeq l cs) :
    (undoN cs.length (executeAll cs ⟨l, done, undone⟩)).segs = l ∧
    (redoN cs.length (undoN cs.length (executeAll cs ⟨l, done, undone⟩))).segs =
      (executeAll cs ⟨l, done, undone⟩).segs := by
  obtain ⟨cs', h1, h2⟩ := executeAll_undoN_redoN cs l done undone hn hv
  rw [h1, h2]
  exact ⟨rfl, rfl⟩

/-- Witness for C6: one add command on the empty store, executed, undone and
redone. -/
theorem execute_undo_redo_roundtrip_witness :
    (undoN 1 (executeAll [Cmd.add (0, 10, 0, "")] ⟨[], [], []⟩)).segs = [] ∧
    (redoN 1 (undoN 1 (executeAll [Cmd.add (0, 10, 0, "")] ⟨[], [], []⟩))).segs =
      (executeAll [Cmd.add (0, 10, 0, "")] ⟨[], [], []⟩).segs := by
  have h := execute_undo_redo_roundtrip [] [] [] [Cmd.add (0, 10, 0, "")]
    (fun s hs => absurd hs (List.not_mem_nil s)) ⟨trivial, trivial⟩
  simpa using h

/-! ## C5: merge followed by undo restores the store -/

theorem mergeCandidatePairs_perm (l : List Segment) (sel : List Nat) :
    List.Perm (mergeCandidatePairs l sel)
      (sel.map (fun i => (i, (l.get? i).getD (mkSegment (0, 0, 0, ""))))) :=
  List.perm_insertionSort _ _

theorem merge_indices_perm (l : List Segment) (sel : List Nat) :
    List.Perm ((mergeCandidatePairs l sel).map (·.1)) sel := by
  have h1 := (mergeCandidatePairs_perm l sel).map (·.1)
  have h2 : (sel.map (fun i => (i, (l.get? i).getD (mkSegment (0, 0, 0, ""))))).map (·.1)
      = sel := by
    rw [List.map_map]
    exact List.map_id sel
  rwa [h2] at h1

/-- C5: for every store state and every valid merge-candidate selection
(distinct in-range rows, at least two, pairwise adjacent-or-overlapping when
sorted by start), executing the merge command and then undoing it reproduces
the exact original segment list, every segment back at its original index. -/
theorem merge_then_undo_restores (um : UndoManager) (sel : List Nat)
    (hlen : 2 ≤ sel.length) (hnd : sel.Nodup) (hin : ∀ i ∈ sel, i < um.segs.length)
    (hn : NamesOk um.segs)
    (hadj : pairwiseAdjacent ((mergeCandidatePairs um.segs sel).map (·.2)) = true) :
    ((mergeSelectedSegments um sel).undoCall).1.segs = um.segs := by
  rw [mergeSelectedSegments, if_neg (by omega), if_pos hadj]
  have hip := merge_indices_perm um.segs sel
  have hnd_ind : ((mergeCandidatePairs um.segs sel).map (·.1)).Nodup := hip.symm.nodup hnd
  have hne_ind : (mergeCandidatePairs um.segs sel).map (·.1) ≠ [] := by
    intro hc
    have := hip.length_eq
    rw [hc] at this
    simp at this
    omega
  have hdesc := sortDesc_pairwise_gt _ hnd_ind
  have hne := sortDesc_ne_nil _ hne_ind
  have hin' : ∀ i ∈ sortDesc ((mergeCandidatePairs um.segs sel).map (·.1)),
      i < um.segs.length := by
    intro i hi
    exact hin i (hip.mem_iff.mp ((sortDesc_perm _).mem_iff.mp hi))
  exact merge_exec_undo _ _ 0 um.segs hne hdesc hin' hn

/-- Witness for C5 on a two-segment store with both rows selected. -/
theorem merge_then_undo_restores_witness :
    ((mergeSelectedSegments
        ⟨[mkSegment (0, 10, 1, "A"), mkSegment (9, 20, 2, "B")], [], []⟩
        [0, 1]).undoCall).1.segs =
      [mkSegment (0, 10, 1, "A"), mkSegment (9, 20, 2, "B")] :=
  merge_then_undo_restores
    ⟨[mkSegment (0, 10, 1, "A"), mkSegment (9, 20, 2, "B")], [], []⟩ [0, 1]
    (by decide) (by decide) (by decide)
    (by
      intro s hs
      simp only [List.mem_cons, List.not_mem_nil, or_false] at hs
      rcases hs with rfl | rfl <;> decide)
    (by decide)

/-! ## C4: characterization of the merge operation -/

instance : IsTotal (Nat × Segment) pairStartLe := ⟨fun x y => le_total x.2.startFrame y.2.startFrame⟩

instance : IsTrans (Nat × Segment) pairStartLe := ⟨fun _ _ _ hab hbc => le_trans hab hbc⟩

theorem foldr_max_ge (l : List Int) (e : Int) : ∀ v ∈ l, v ≤ l.foldr max e := by
  induction l with
  | nil => intro v hv; cases hv
  | cons a t ih =>
    intro v hv
    rcases List.mem_cons.mp hv with rfl | hv'
    · exact le_max_left _ _
    · exact le_trans (ih v hv') (le_max_right _ _)

theorem foldr_max_mem (l : List Int) (e : Int) : l.foldr max e = e ∨ l.foldr max e ∈ l := by
  induction l with
  | nil => exact Or.inl rfl
  | cons a t ih =>
    rw [List.foldr_cons]
    rcases max_choice a (t.foldr max e) with h | h
    · rw [h]; exact Or.inr (by simp)
    · rw [h]
      rcases ih with h' | h'
      · exact Or.inl h'
      · exact Or.inr (List.mem_cons_of_mem _ h')

theorem sorted_pairs_head_min (l : List (Nat × Segment)) (hp : List.Pairwise pairStartLe l)
    (a : Nat × Segment) (h : l.head? = some a) :
    ∀ p ∈ l, a.2.startFrame ≤ p.2.startFrame := by
  cases l with
  | nil => cases h
  | cons b t =>
    have hab : a = b := by
      rw [List.head?_cons] at h
      exact (Option.some_inj.mp h).symm
    subst hab
    intro p hp'
    rcases List.mem_cons.mp hp' with rfl | hp''
    · exact le_refl _
    · exact (List.pairwise_cons.mp hp).1 p hp''

theorem mergeCandidatePairs_sorted (l : List Segment) (sel : List Nat) :
    List.Pairwise pairStartLe (mergeCandidatePairs l sel) :=
  List.sorted_insertionSort _ _

theorem mergeCandidatePairs_snd_perm (l : List Segment) (sel : List Nat) :
    List.Perm ((mergeCandidatePairs l sel).map (·.2)) (selectedSegs l sel) := by
  have h1 := (mergeCandidatePairs_perm l sel).map (·.2)
  have h2 : (sel.map (fun i => (i, (l.get? i).getD (mkSegment (0, 0, 0, ""))))).map (·.2)
      = selectedSegs l sel := by
    rw [List.map_map]; rfl
  rwa [h2] at h1

/-- C4: for every store and every selection of at least two distinct in-range
rows, if the selected segments — sorted by start frame — are not pairwise
adjacent-or-overlapping the merge is rejected and the store is unchanged;
otherwise the selected segments are replaced by a single new segment spanning
`[min start, max end]`, whose color is inherited from an earliest (minimal
start) selected segment, inserted at the smallest selected index — the last
entry of the command's descending index list, which the spec calls "the
position of the last selected index" — with all unselected segments kept in
order. -/
theorem merge_selected_behavior (um : UndoManager) (sel : List Nat)
    (hlen : 2 ≤ sel.length) (hnd : sel.Nodup) (hin : ∀ i ∈ sel, i < um.segs.length) :
    (pairwiseAdjacent ((mergeCandidatePairs um.segs sel).map (·.2)) = false →
      mergeSelectedSegments um sel = um) ∧
    (pairwiseAdjacent ((mergeCandidatePairs um.segs sel).map (·.2)) = true →
      ∃ (m : Nat) (merged : Segment),
        m ∈ sel ∧ (∀ j ∈ sel, m ≤ j) ∧
        (mergeSelectedSegments um sel).segs =
          pyInsert m merged (keepNotIdx um.segs sel) ∧
        (merged.startFrame ∈ (selectedSegs um.segs sel).map Segment.startFrame ∧
          ∀ v ∈ (selectedSegs um.segs sel).map Segment.startFrame, merged.startFrame ≤ v) ∧
        (merged.endFrame ∈ (selectedSegs um.segs sel).map Segment.endFrame ∧
          ∀ v ∈ (selectedSegs um.segs sel).map Segment.endFrame, v ≤ merged.endFrame) ∧
        (∃ e ∈ selectedSegs um.segs sel,
          e.startFrame = merged.startFrame ∧ merged.color = e.color)) := by
  constructor
  · intro hadj
    rw [mergeSelectedSegments, if_neg (by omega)]
    simp only [hadj, Bool.false_eq_true, if_false]
  · intro hadj
    have hsegs_eq : (mergeSelectedSegments um sel).segs =
        (Cmd.exec (freshMerge ((mergeCandidatePairs um.segs sel).map (·.1))
          (mergeData um.segs sel)) um.segs).1 := by
      rw [mergeSelectedSegments, if_neg (by omega), if_pos hadj]
      rfl
    have hip := merge_indices_perm um.segs sel
    have hnd_ind : ((mergeCandidatePairs um.segs sel).map (·.1)).Nodup := hip.symm.nodup hnd
    have hne_ind : (mergeCandidatePairs um.segs sel).map (·.1) ≠ [] := by
      intro hc
      have := hip.length_eq
      rw [hc] at this
      simp at this
      omega
    have hdesc := sortDesc_pairwise_gt _ hnd_ind
    have hne := sortDesc_ne_nil _ hne_ind
    have hmemiff : ∀ j, j ∈ sortDesc ((mergeCandidatePairs um.segs sel).map (·.1)) ↔ j ∈ sel :=
      fun j => Iff.trans ((sortDesc_perm _).mem_iff) (hip.mem_iff)
    have hin' : ∀ i ∈ sortDesc ((mergeCandidatePairs um.segs sel).map (·.1)),
        i < um.segs.length := fun i hi => hin i ((hmemiff i).mp hi)
    rw [hsegs_eq]
    simp only [freshMerge]
    rw [merge_exec_eq _ _ 0 um.segs hdesc hin']
    have hpne : mergeCandidatePairs um.segs sel ≠ [] := by
      intro hc
      have := (mergeCandidatePairs_perm um.segs sel).length_eq
      rw [hc] at this
      simp at this
      omega
    obtain ⟨hd, tl, hpairs⟩ : ∃ hd tl, mergeCandidatePairs um.segs sel = hd :: tl := by
      cases h : mergeCandidatePairs um.segs sel with
      | nil => exact absurd h hpne
      | cons hd tl => exact ⟨hd, tl, rfl⟩
    have hhead : (mergeCandidatePairs um.segs sel).head? = some hd := by
      rw [hpairs]; rfl
    have hhd_mem : hd ∈ mergeCandidatePairs um.segs sel := by rw [hpairs]; simp
    have hsnd_perm := mergeCandidatePairs_snd_perm um.segs sel
    have hhd2_mem : hd.2 ∈ selectedSegs um.segs sel :=
      hsnd_perm.mem_iff.mp (List.mem_map_of_mem (·.2) hhd_mem)
    refine ⟨(sortDesc ((mergeCandidatePairs um.segs sel).map (·.1))).getLast?.getD 0,
      mkSegment (mergeData um.segs sel), ?_, ?_, ?_, ?_, ?_, ?_⟩
    · rw [show (sortDesc ((mergeCandidatePairs um.segs sel).map (·.1))).getLast?.getD 0 =
        (sortDesc ((mergeCandidatePairs um.segs sel).map (·.1))).getLast hne by
          rw [List.getLast?_eq_getLast _ hne]; rfl]
      exact (hmemiff _).mp (List.getLast_mem hne)
    · intro j hj
      rw [show (sortDesc ((mergeCandidatePairs um.segs sel).map (·.1))).getLast?.getD 0 =
        (sortDesc ((mergeCandidatePairs um.segs sel).map (·.1))).getLast hne by
          rw [List.getLast?_eq_getLast _ hne]; rfl]
      exact getLast_le_of_sorted_ge _ hne (hdesc.imp le_of_lt) j ((hmemiff j).mpr hj)
    · show pyInsert _ (mkSegment (mergeData um.segs sel))
          (keepAux 0 (sortDesc ((mergeCandidatePairs um.segs sel).map (·.1))) um.segs) = _
      rw [keepAux_congr um.segs 0 _ sel (fun j => hmemiff j)]
      rfl
    · constructor
      · show (mergeData um.segs sel).1 ∈ _
        rw [mergeData]
        simp only [hhead, Option.map_some', Option.getD_some]
        exact List.mem_map_of_mem Segment.startFrame hhd2_mem
      · intro v hv
        show (mergeData um.segs sel).1 ≤ v
        rw [mergeData]
        simp only [hhead, Option.map_some', Option.getD_some]
        obtain ⟨seg, hseg_mem, rfl⟩ := List.mem_map.mp hv
        obtain ⟨p, hp_mem, hp2⟩ :=
          List.mem_map.mp (hsnd_perm.mem_iff.mpr hseg_mem)
        have := sorted_pairs_head_min _ (mergeCandidatePairs_sorted um.segs sel) hd hhead
          p hp_mem
        rw [hp2] at this
        exact this
    · constructor
      · show (mergeData um.segs sel).2.1 ∈ _
        rw [mergeData]
        simp only [hhead, Option.map_some', Option.getD_some]
        rcases foldr_max_mem ((mergeCandidatePairs um.segs sel).map (·.2.endFrame))
            hd.2.endFrame with h | h
        · rw [h]
          exact List.mem_map_of_mem Segment.endFrame hhd2_mem
        · obtain ⟨p, hp_mem, hp2⟩ := List.mem_map.mp h
          rw [← hp2]
          exact List.mem_map_of_mem Segment.endFrame
            (hsnd_perm.mem_iff.mp (List.mem_map_of_mem (·.2) hp_mem))
      · intro v hv
        show v ≤ (mergeData um.segs sel).2.1
        rw [mergeData]
        simp only [hhead, Option.map_some', Option.getD_some]
        obtain ⟨seg, hseg_mem, rfl⟩ := List.mem_map.mp hv
        obtain ⟨p, hp_mem, hp2⟩ :=
          List.mem_map.mp (hsnd_perm.mem_iff.mpr hseg_mem)
        have : p.2.endFrame ∈ (mergeCandidatePairs um.segs sel).map (·.2.endFrame) := by
          have h1 := List.mem_map_of_mem (fun q : Nat × Segment => q.2.endFrame) hp_mem
          exact h1
        have h2 := foldr_max_ge ((mergeCandidatePairs um.segs sel).map (·.2.endFrame))
          hd.2.endFrame p.2.endFrame this
        rw [hp2] at h2
        exact h2
    · refine ⟨hd.2, hhd2_mem, ?_, ?_⟩
      · show hd.2.startFrame = (mergeData um.segs sel).1
        rw [mergeData]
        simp only [hhead, Option.map_some', Option.getD_some]
      · show (mergeData um.segs sel).2.2.1 = hd.2.color
        rw [mergeData]
        simp only [hhead, Option.map_some', Option.getD_some]

/-- Witness for C4 on a two-segment store: merging adjacent rows 0 and 1
replaces them by one segment at index 0. -/
theorem merge_selected_behavior_witness :
    mergeSelectedSegments ⟨[mkSegment (0, 10, 1, "A"), mkSegment (30, 40, 2, "B")], [], []⟩
        [0, 1] =
      ⟨[mkSegment (0, 10, 1, "A"), mkSegment (30, 40, 2, "B")], [], []⟩ :=
  (merge_selected_behavior
    ⟨[mkSegment (0, 10, 1, "A"), mkSegment (30, 40, 2, "B")], [], []⟩ [0, 1]
    (by decide) (by decide) (by decide)).1 (by decide)

end PowerTrim
